import Mathlib

/-!
Verification of the Context Window Manager
(`src/core/context/context-management/ContextManager.ts` and
`src/core/context/context-management/context-window-utils.ts`).

The raw conversation history, the timestamped edit log, the edit applier,
the duplicate-file-read elider, the truncator, the rollback operation and
the budget oracle are embedded shallowly below.  JavaScript numbers are
modelled as `Nat` (indices, timestamps, token counts) and `Rat` (budget
arithmetic, truncation fraction).  JavaScript objects with numeric keys
(`PersistedContextHistory`) are modelled as association lists whose
iteration order is the object's key order; JavaScript engines iterate
integer-like keys in ascending numeric order, so well-formed logs carry
ascending keys.  `JSON.stringify` equality of two such objects is modelled
as structural equality of the association lists.
-/

/-- Message role (`"user" | "assistant"`). -/
inductive Role where
  | user
  | assistant
deriving DecidableEq, Repr

/-- A content block of a message (`Anthropic.Messages` block variants used by
the manager).  `tool_use.input` and `tool_result.content` hold the serialized
form (`JSON.stringify`) when structured; `none` models an absent field. -/
inductive Block where
  | text (t : String)
  | image
  | tool_use (name : String) (input : Option String)
  | tool_result (content : Option String)
deriving DecidableEq, Repr

/-- Message content: an array of blocks, or a legacy bare string. -/
inductive MsgContent where
  | blocks (bs : List Block)
  | str (s : String)
deriving DecidableEq, Repr

/-- A raw message of the conversation history. -/
structure Message where
  role : Role
  content : MsgContent
deriving DecidableEq, Repr

/-- `ContextUpdate` from `types.ts`: `[timestamp, updateType, content, metadata?]`. -/
inductive UpdateType where
  | replace_content
  | add_truncation_notice
  | other
deriving DecidableEq, Repr

/-- Metadata attached to an elision edit (`{ originalPath, replacedMention? }`);
an absent `replacedMention` field is modelled as `false`. -/
structure Metadata where
  originalPath : String
  replacedMention : Bool
deriving DecidableEq, Repr

/-- One edit of the edit log. -/
structure ContextUpdate where
  ts : Nat
  updateType : UpdateType
  content : Option String
  metadata : Option Metadata
deriving DecidableEq, Repr

/-- Block map of one message entry of the edit log: block index ↦ edits,
in ascending key order. -/
abbrev BlockMap := List (Nat × List ContextUpdate)

/-- One message entry of `PersistedContextHistory`. -/
structure MessageUpdates where
  editType : Role
  blocks : BlockMap
deriving DecidableEq, Repr

/-- `PersistedContextHistory`: message index ↦ entry, in ascending key order. -/
abbrev EditLog := List (Nat × MessageUpdates)

/-! ### String helpers

`String.startsWith`, first-occurrence search and first-occurrence
replacement (JavaScript `String.prototype.replace` with a string pattern
replaces only the first occurrence, unlike Lean's `String.replace`). -/

/-- `s.startsWith(pre)`. -/
def strStartsWith (s pre : String) : Bool :=
  s.toList.take pre.toList.length == pre.toList

/-- Split `l` at the first occurrence of `pat`: returns `(before, after)` with
`l = before ++ pat ++ after`, or `none` when `pat` does not occur. -/
def splitAtSub (pat : List Char) : List Char → Option (List Char × List Char)
  | [] => if pat = [] then some ([], []) else none
  | c :: rest =>
    if (c :: rest).take pat.length = pat then
      some ([], (c :: rest).drop pat.length)
    else
      match splitAtSub pat rest with
      | some (b, a) => some (c :: b, a)
      | none => none

/-- JavaScript `s.replace(pat, rep)` with a string pattern: replace the first
occurrence of `pat`, or return `s` unchanged when `pat` does not occur. -/
def replaceFirst (s pat rep : String) : String :=
  match splitAtSub pat.toList s.toList with
  | some (b, a) => ⟨b ++ rep.toList ++ a⟩
  | none => s

/-- `pat` occurs as a contiguous substring of `s`. -/
def strHasSub (s pat : String) : Prop :=
  ∃ b a, s.toList = b ++ pat.toList ++ a

/-! ### Canonical notice strings

The notice strings are produced by `formatResponse` in
`src/core/prompts/responses.ts`, which is not part of the sources under
verification; only their exact, fixed text matters (idempotence checks
compare against them).  Following the spec's fixture abbreviations we fix
them as concrete constants. -/

/-- Modelled from the spec: `formatResponse.contextTruncationNotice()`, the
canonical truncation notice prepended by the truncator (external formatter;
spec §6 and §8 fixtures, abbreviated `[trunc]`). -/
def contextTruncationNotice : String := "[trunc]"

/-- Modelled from the spec: `formatResponse.duplicateFileReadNotice()`, the
canonical duplicate-read notice used as elision payload (external formatter;
spec §6 and §8 fixtures, abbreviated `[dup]`). -/
def duplicateFileReadNotice : String := "[dup]"

/-! ### Token estimator (`calculateTokens`) -/

/-- `calculateTokens`: sum the estimate of every block; a legacy bare-string
message is costed through the tokenizer directly. -/
def calculateTokens (tokenizer : String → Nat) (history : List Message) : Nat :=
  history.foldl
    (fun totalTokens message =>
      match message.content with
      | MsgContent.blocks bs =>
        bs.foldl
          (fun acc block =>
            match block with
            | Block.text t => acc + tokenizer t
            | Block.image => acc + 1500
            | Block.tool_use name input =>
                acc + tokenizer (input.getD "") + tokenizer name + 20
            | Block.tool_result content =>
                acc + tokenizer (content.getD "") + 20)
          totalTokens
      | MsgContent.str s => totalTokens + tokenizer s)
    0

/-! ### Edit-log primitives

Lookup and update of the numeric-keyed objects.  `setEntry` inserts in
ascending key position (JavaScript objects iterate integer keys in
ascending order) or replaces an existing entry. -/

/-- First entry with the given key. -/
def lookupEntry (log : EditLog) (i : Nat) : Option MessageUpdates :=
  (log.find? (fun e => e.1 == i)).map (fun e => e.2)

/-- First block list with the given key inside a block map. -/
def lookupBM (bm : BlockMap) (b : Nat) : List ContextUpdate :=
  ((bm.find? (fun e => e.1 == b)).map (fun e => e.2)).getD []

/-- The edit list recorded for `(message i, block b)`; `[]` when absent. -/
def lookupBlock (log : EditLog) (i b : Nat) : List ContextUpdate :=
  match lookupEntry log i with
  | some mu => lookupBM mu.blocks b
  | none => []

/-- Insert-or-replace at a numeric key, keeping ascending key order. -/
def setSorted {α : Type} (k : Nat) (v : α) : List (Nat × α) → List (Nat × α)
  | [] => [(k, v)]
  | (k', v') :: t =>
    if k < k' then (k, v) :: (k', v') :: t
    else if k = k' then (k, v) :: t
    else (k', v') :: setSorted k v t

/-- `log[k] = v` on the outer object. -/
def setEntry (log : EditLog) (k : Nat) (v : MessageUpdates) : EditLog :=
  setSorted k v log

/-- `blocks[k] = v` on a block map. -/
def setBM (bm : BlockMap) (k : Nat) (v : List ContextUpdate) : BlockMap :=
  setSorted k v bm

/-! ### Edit applier

`applyModificationsToHistory` (and the structurally identical
`applyContextHistoryUpdates`): deep-copy the history and, for every
`(message, block)` with a non-empty edit list, apply the *latest* edit.
Invalid message indices, non-array content, invalid block indices and
type/payload mismatches are skipped-with-a-warning no-ops. -/

/-- Apply one edit to one block: `replace_content` overwrites the text of a
text block when the payload is a string; `add_truncation_notice` prepends
`notice + "\n"` to a text block unless its text already starts with the
notice; everything else (wrong block variant, missing payload, `other`)
is a no-op. -/
def applyUpdateToBlock (u : ContextUpdate) (block : Block) : Block :=
  match u.updateType with
  | UpdateType.replace_content =>
    match block, u.content with
    | Block.text _, some newContent => Block.text newContent
    | _, _ => block
  | UpdateType.add_truncation_notice =>
    match block with
    | Block.text t =>
      if strStartsWith t contextTruncationNotice then Block.text t
      else Block.text (contextTruncationNotice ++ "\n" ++ t)
    | _ => block
  | UpdateType.other => block

/-- Replace `l[i]` by `f l[i]`; out-of-range indices are no-ops (this is the
source's explicit bounds check before each block/message write). -/
def modifyAt {α : Type} (l : List α) (i : Nat) (f : α → α) : List α :=
  match l[i]? with
  | some a => l.set i (f a)
  | none => l

/-- The per-block actions of one message entry: for each block index with a
non-empty edit list, apply the latest edit (earlier edits are retained for
rollback only). -/
def blockStepsOf (mu : MessageUpdates) : List (Nat × (Block → Block)) :=
  mu.blocks.filterMap
    (fun bu => bu.2.getLast?.map (fun u => (bu.1, applyUpdateToBlock u)))

/-- Apply a list of indexed actions left to right (`modifyAt` at each key). -/
def applySteps {α : Type} (ps : List (Nat × (α → α))) (l : List α) : List α :=
  ps.foldl (fun acc p => modifyAt acc p.1 p.2) l

/-- Apply one message entry of the log to one message: only array content is
edited; block bounds are checked by `modifyAt`. -/
def applyEntryToMessage (mu : MessageUpdates) (m : Message) : Message :=
  match m.content with
  | MsgContent.blocks bs =>
      { m with content := MsgContent.blocks (applySteps (blockStepsOf mu) bs) }
  | MsgContent.str _ => m

/-- `applyModificationsToHistory(history, modifications)`: fold the entries of
the log over (a copy of) the history; entries whose message index is out of
range or whose message has non-array content are skipped. -/
def applyModificationsToHistory (history : List Message) (modifications : EditLog) :
    List Message :=
  modifications.foldl
    (fun h e =>
      match h[e.1]? with
      | none => h
      | some msg =>
        match msg.content with
        | MsgContent.str _ => h
        | MsgContent.blocks _ => h.set e.1 (applyEntryToMessage e.2 msg))
    history

/-- `applyContextHistoryUpdates(rawHistory)`: the instance method whose body
coincides with `applyModificationsToHistory` applied to the live log
(the two functions in the source differ only in logging). -/
def applyContextHistoryUpdates (rawHistory : List Message) (liveLog : EditLog) :
    List Message :=
  applyModificationsToHistory rawHistory liveLog

/-! ### Duplicate file-read detection (`findDuplicateFileReads`)

Two shapes are recognized in user messages of the *raw* history:

* tool-result shape: block 0 is a text block fully matching
  `^\[read_file for '([^']+)'\] Result:$` and block 1 exists and is a text
  block; the occurrence's content block is block 1;
* mention shape: any text block containing matches of
  `<file_content path="([^"]*)">([\s\S]*?)</file_content>`; each match is an
  occurrence carrying the exact matched substring (`fullMatch`).

The anchored tool-result pattern backtracks deterministically (`[^']+` cannot
cross a quote), and the lazy mention pattern takes the shortest content up to
the first closing tag, scanning left to right and resuming after each match;
the matchers below implement exactly these semantics. -/

/-- An occurrence of a file read (helper type `FileReadOccurrence`). -/
structure FileReadOccurrence where
  messageIndex : Nat
  blockIndex : Nat
  filePath : String
  fullMatch : Option String
deriving DecidableEq, Repr

/-- Full-string match of `^\[read_file for '([^']+)'\] Result:$`, returning
capture group 1 (the path). -/
def parseToolResultPath (s : String) : Option String :=
  let l := s.toList
  let pre := "[read_file for '".toList
  if l.take pre.length = pre then
    let rest := l.drop pre.length
    let path := rest.takeWhile (fun c => c ≠ '\'')
    let after := rest.drop path.length
    if path ≠ [] ∧ after = "'] Result:".toList then some ⟨path⟩ else none
  else none

/-- Try to match `<file_content path="([^"]*)">([\s\S]*?)</file_content>` at
the very start of `l`; on success return the path, the full matched substring,
and the remainder of `l` after the match. -/
def matchMentionAt (l : List Char) : Option (String × List Char × List Char) :=
  let lit := "<file_content path=\"".toList
  if l.take lit.length = lit then
    let r1 := l.drop lit.length
    let path := r1.takeWhile (fun c => c ≠ '"')
    let r2 := r1.dropWhile (fun c => c ≠ '"')
    match r2 with
    | '"' :: '>' :: r3 =>
      match splitAtSub "</file_content>".toList r3 with
      | some (content, rest) =>
        some (⟨path⟩,
          lit ++ path ++ '"' :: '>' :: content ++ "</file_content>".toList,
          rest)
      | none => none
    | _ => none
  else none

/-- Global scan for mention matches: left to right, resuming after each match
(`RegExp.exec` with the `g` flag).  `fuel` bounds the recursion; it is always
called with `fuel = l.length + 1`, which suffices since every step consumes at
least one character. -/
def scanMentionsF (fuel : Nat) (l : List Char) : List (String × List Char) :=
  match fuel with
  | 0 => []
  | fuel + 1 =>
    match l with
    | [] => []
    | c :: rest =>
      match matchMentionAt (c :: rest) with
      | some (p, fm, after) => (p, fm) :: scanMentionsF fuel after
      | none => scanMentionsF fuel rest

/-- All mention matches of a block text, in scan order. -/
def scanMentions (t : String) : List (String × List Char) :=
  scanMentionsF (t.toList.length + 1) t.toList

/-- Append one occurrence to the multimap, preserving first-seen path order
(a JavaScript `Map` iterates in insertion order). -/
def pushOcc (m : List (String × List FileReadOccurrence)) (p : String)
    (o : FileReadOccurrence) : List (String × List FileReadOccurrence) :=
  match m with
  | [] => [(p, [o])]
  | (p', os) :: t =>
    if p' = p then (p', os ++ [o]) :: t else (p', os) :: pushOcc t p o

/-- The occurrences contributed by block `blockIndex` of user message
`messageIndex` whose full block list is `bs`: the tool-result shape (only at
block 0, pointing at block 1) followed by the mention matches of the block. -/
def blockOccurrences (messageIndex : Nat) (bs : List Block) (blockIndex : Nat)
    (b : Block) : List (String × FileReadOccurrence) :=
  let toolOccs :=
    if blockIndex = 0 then
      match b with
      | Block.text t =>
        match parseToolResultPath t with
        | some p =>
          match bs[1]? with
          | some (Block.text _) => [(p, ⟨messageIndex, 1, p, none⟩)]
          | _ => []
        | none => []
      | _ => []
    else []
  let mentionOccs :=
    match b with
    | Block.text t =>
      (scanMentions t).map (fun pr => (pr.1, ⟨messageIndex, blockIndex, pr.1, some ⟨pr.2⟩⟩))
    | _ => []
  toolOccs ++ mentionOccs

/-- Occurrences of one message (empty unless a user message with array
content), pushed into the multimap in scan order. -/
def scanMessage (messageIndex : Nat) (message : Message)
    (acc : List (String × List FileReadOccurrence)) :
    List (String × List FileReadOccurrence) :=
  match message.role, message.content with
  | Role.user, MsgContent.blocks bs =>
    (bs.enum.foldl
      (fun a pr =>
        (blockOccurrences messageIndex bs pr.1 pr.2).foldl
          (fun a' e => pushOcc a' e.1 e.2) a)
      acc)
  | _, _ => acc

/-- `findDuplicateFileReads(history)`: path ↦ occurrences in scan order. -/
def findDuplicateFileReads (history : List Message) :
    List (String × List FileReadOccurrence) :=
  history.enum.foldl (fun acc pr => scanMessage pr.1 pr.2 acc) []

/-! ### Duplicate elider (`applyOptimizations`) -/

/-- `message.content[blockIndex]` of the raw history, when the message exists
and has array content. -/
def blockAt (history : List Message) (i b : Nat) : Option Block :=
  match history[i]? with
  | some msg =>
    match msg.content with
    | MsgContent.blocks bs => bs[b]?
    | MsgContent.str _ => none
  | none => none

/-- Build the `ContextUpdate` pushed for one non-final occurrence.  Tool-result
shape: payload is the duplicate-read notice.  Mention shape: the latest text of
the target block (latest existing `replace_content` string payload, else the
raw text block) with `fullMatch` replaced by the notice-wrapped mention;
when no such text is found the payload falls back to the bare notice. -/
def mkElisionUpdate (timestamp : Nat) (rawHistory : List Message) (log : EditLog)
    (filePath : String) (o : FileReadOccurrence) : ContextUpdate :=
  let replacementNotice := duplicateFileReadNotice
  match o.fullMatch with
  | none => ⟨timestamp, UpdateType.replace_content, some replacementNotice,
      some ⟨filePath, false⟩⟩
  | some fullMatch =>
    let existingUpdates := lookupBlock log o.messageIndex o.blockIndex
    let fromUpdates : String :=
      match existingUpdates.getLast? with
      | some latest =>
        if latest.updateType = UpdateType.replace_content then
          latest.content.getD ""
        else ""
      | none => ""
    let currentText : String :=
      if fromUpdates ≠ "" then fromUpdates
      else
        match blockAt rawHistory o.messageIndex o.blockIndex with
        | some (Block.text t) => t
        | _ => ""
    if currentText ≠ "" then
      let mentionReplacement :=
        "<file_content path=\"" ++ filePath ++ "\">" ++ replacementNotice
          ++ "</file_content>"
      ⟨timestamp, UpdateType.replace_content,
        some (replaceFirst currentText fullMatch mentionReplacement),
        some ⟨filePath, true⟩⟩
    else
      ⟨timestamp, UpdateType.replace_content, some replacementNotice,
        some ⟨filePath, false⟩⟩

/-- Process one non-final occurrence: ensure the message entry exists (its
`editType` is the raw message's role; an out-of-range message index is skipped
with a warning), ensure the block list exists, and append the elision edit. -/
def elidePush (timestamp : Nat) (rawHistory : List Message) (log : EditLog)
    (filePath : String) (o : FileReadOccurrence) : EditLog :=
  let log1 :=
    match lookupEntry log o.messageIndex with
    | some _ => log
    | none =>
      match rawHistory[o.messageIndex]? with
      | some originalMessage =>
        setEntry log o.messageIndex ⟨originalMessage.role, []⟩
      | none => log
  match lookupEntry log1 o.messageIndex with
  | none => log
  | some mu =>
    let u := mkElisionUpdate timestamp rawHistory log filePath o
    setEntry log1 o.messageIndex
      ⟨mu.editType, setBM mu.blocks o.blockIndex (lookupBM mu.blocks o.blockIndex ++ [u])⟩

/-- `applyOptimizations(rawHistory, currentModifications)`: for every path
with at least two occurrences, push an elision edit for every occurrence but
the last; all pushed edits carry the single call timestamp. -/
def applyOptimizations (timestamp : Nat) (rawHistory : List Message)
    (currentModifications : EditLog) : EditLog :=
  (findDuplicateFileReads rawHistory).foldl
    (fun acc pr =>
      if pr.2.length ≤ 1 then acc
      else pr.2.dropLast.foldl (fun a o => elidePush timestamp rawHistory a pr.1 o) acc)
    currentModifications

/-! ### Budget oracle (`getContextWindowInfo`) -/

/-- `ModelInfo` restricted to the only field the manager reads. -/
structure ModelInfo where
  contextWindow : Option Rat
deriving DecidableEq, Repr

/-- Result of `getContextWindowInfo`. -/
structure ContextWindowInfo where
  contextWindow : Rat
  maxAllowedSize : Rat
deriving DecidableEq, Repr

/-- `getContextWindowInfo(modelInfo)`: absent or zero (falsy) `contextWindow`
defaults to 128 000; known sizes get fixed buffers; any other size gets
`W - max(0.2·W, 40 000)` clamped to `max(·, W/2, 1000)`. -/
def getContextWindowInfo (modelInfo : Option ModelInfo) : ContextWindowInfo :=
  let DEFAULT_CONTEXT_WINDOW : Rat := 128000
  let DEFAULT_BUFFER : Rat := 30000
  let contextWindow : Rat :=
    match modelInfo with
    | some mi =>
      match mi.contextWindow with
      | some w => if w = 0 then DEFAULT_CONTEXT_WINDOW else w
      | none => DEFAULT_CONTEXT_WINDOW
    | none => DEFAULT_CONTEXT_WINDOW
  if contextWindow = 64000 then
    ⟨contextWindow, contextWindow - 27000⟩
  else if contextWindow = 128000 then
    ⟨contextWindow, contextWindow - DEFAULT_BUFFER⟩
  else if contextWindow = 200000 then
    ⟨contextWindow, contextWindow - 40000⟩
  else
    let percentageBasedBuffer := contextWindow * (2 / 10 : Rat)
    let fixedBuffer : Rat := 40000
    let m0 := contextWindow - max percentageBasedBuffer fixedBuffer
    ⟨contextWindow, max (max m0 (contextWindow / 2)) 1000⟩

/-! ### Truncator (`applyTruncation`) -/

/-- The eviction count, as computed by the source: `ceil((N-2)·φ)`, bumped to
even, clipped to `N-2` (meaningful when `N > 2` and `φ > 0`). -/
def removalCount (numMessages : Nat) (truncationPercentage : Rat) : Int :=
  let numMessagesToConsider : Int := (numMessages : Int) - 2
  let m0 : Int := ⌈(numMessagesToConsider : Rat) * truncationPercentage⌉
  let m1 : Int := if m0 % 2 ≠ 0 then m0 + 1 else m0
  min m1 numMessagesToConsider

/-- The truncation-notice edit (3-element tuple: no payload, no metadata). -/
def noticeUpdate (timestamp : Nat) : ContextUpdate :=
  ⟨timestamp, UpdateType.add_truncation_notice, none, none⟩

/-- Ensure the log carries an `add_truncation_notice` on `(1, 0)`: create the
entry for message 1 only when the *pre-truncation* message at index 1 is an
assistant message (otherwise warn and skip); then append the notice unless the
latest edit of block 0 is already a truncation notice. -/
def addTruncationNoticeEdit (historyToTruncate : List Message) (log : EditLog)
    (timestamp : Nat) : EditLog :=
  let firstAssistantMessageIndex := 1
  let log1 :=
    match lookupEntry log firstAssistantMessageIndex with
    | some _ => log
    | none =>
      match historyToTruncate[firstAssistantMessageIndex]? with
      | some originalMessage =>
        if originalMessage.role = Role.assistant then
          setEntry log firstAssistantMessageIndex ⟨Role.assistant, []⟩
        else log
      | none => log
  match lookupEntry log1 firstAssistantMessageIndex with
  | none => log1
  | some mu =>
    let blockUpdates := lookupBM mu.blocks 0
    match blockUpdates.getLast? with
    | some latestUpdate =>
      if latestUpdate.updateType = UpdateType.add_truncation_notice then log1
      else
        setEntry log1 firstAssistantMessageIndex
          ⟨mu.editType, setBM mu.blocks 0 (blockUpdates ++ [noticeUpdate timestamp])⟩
    | none =>
      setEntry log1 firstAssistantMessageIndex
        ⟨mu.editType, setBM mu.blocks 0 (blockUpdates ++ [noticeUpdate timestamp])⟩

/-- Index rewrite after evicting `[2, 2 + messagesToRemove)`: keep keys below
2, discard keys in the evicted range, shift keys above it down by
`messagesToRemove` (the object rebuild iterates keys in ascending order). -/
def adjustModificationIndices (messagesToRemove : Nat) (log : EditLog) : EditLog :=
  log.foldl
    (fun acc e =>
      if e.1 < 2 then acc ++ [(e.1, e.2)]
      else if e.1 > 2 + messagesToRemove - 1 then acc ++ [(e.1 - messagesToRemove, e.2)]
      else acc)
    []

/-- Result triple of `applyTruncation`. -/
structure TruncationResult where
  truncatedHistory : List Message
  updatedModifications : EditLog
  wasTruncated : Bool
deriving DecidableEq, Repr

/-- `applyTruncation(historyToTruncate, currentModifications, maxTokens,
previousRequestTokenCount)`: truncate iff the previous request's token count
exceeds `maxTokens`; keep the first pair, evict `removalCount` messages from
index 2, add the truncation notice, rewrite the log's indices.  The token
estimate of the current history is computed but unused (`currentTokens` in
the source). -/
def applyTruncation (tokenizer : String → Nat) (historyToTruncate : List Message)
    (currentModifications : EditLog) (maxTokens : Rat)
    (previousRequestTokenCount : Rat) (truncationPercentage : Rat)
    (timestamp : Nat) : TruncationResult :=
  if previousRequestTokenCount > maxTokens then
    let _currentTokens := calculateTokens tokenizer historyToTruncate
    let startIndexToConsider := 2
    let numMessages := historyToTruncate.length
    if numMessages > startIndexToConsider then
      let messagesToRemove := (removalCount numMessages truncationPercentage).toNat
      let truncatedHistory :=
        historyToTruncate.take startIndexToConsider
          ++ historyToTruncate.drop (startIndexToConsider + messagesToRemove)
      let modsWithNotice :=
        if truncatedHistory.length > 1 then
          addTruncationNoticeEdit historyToTruncate currentModifications timestamp
        else currentModifications
      ⟨truncatedHistory, adjustModificationIndices messagesToRemove modsWithNotice, true⟩
    else
      ⟨historyToTruncate, currentModifications, true⟩
  else
    ⟨historyToTruncate, currentModifications, false⟩

/-! ### Rollback (`truncateHistoryUpdatesAtTimestamp`) -/

/-- The pure core of `truncateHistoryUpdatesAtTimestamp(timestamp)`: drop every
edit with `ts > timestamp`; drop blocks whose list becomes empty and message
entries whose block map becomes empty.  The second component models whether
the state is swapped and persisted (`JSON.stringify` comparison of the new log
with the old, modelled as structural comparison). -/
def truncateHistoryUpdatesAtTimestamp (log : EditLog) (timestamp : Nat) :
    EditLog × Bool :=
  let newModifications :=
    log.foldl
      (fun acc e =>
        let newBlocks :=
          e.2.blocks.foldl
            (fun bacc bu =>
              let validUpdates := bu.2.filter (fun u => u.ts ≤ timestamp)
              if validUpdates.length > 0 then bacc ++ [(bu.1, validUpdates)] else bacc)
            []
        if newBlocks ≠ [] then acc ++ [(e.1, ⟨e.2.editType, newBlocks⟩)] else acc)
      []
  (newModifications, newModifications ≠ log)

/-! ### Manager facade (`processHistoryForApi`) -/

/-- Manager configuration held by the `ContextManager` instance. -/
structure CMConfig where
  truncationPercentage : Rat
  reservedResponseTokens : Rat
  tokenBuffer : Rat
  currentModelInfo : Option ModelInfo
deriving DecidableEq, Repr

/-- Outcome of one `processHistoryForApi` call: the returned
`ProcessedContextResult` fields, the new live log, and whether
`saveContextHistory` was invoked. -/
structure ProcessOutcome where
  processedHistory : List Message
  updatedModifications : EditLog
  tokensUsed : Nat
  wasTruncated : Bool
  newLiveLog : EditLog
  storeInvoked : Bool
deriving DecidableEq, Repr

/-- `processHistoryForApi(rawApiConversationHistory, _, previousRequestTokenCount)`:
elide duplicates, apply the live log then the candidate log, compute the budget
(`maxAllowedSize - reservedResponseTokens - tokenBuffer`); a non-positive
budget is an error no-op returning the raw history; otherwise truncate if
needed, estimate tokens, and persist the candidate log iff it differs from the
live log. -/
def processHistoryForApi (tokenizer : String → Nat) (cfg : CMConfig)
    (liveLog : EditLog) (rawApiConversationHistory : List Message)
    (previousRequestTokenCount : Rat) (timestamp : Nat) : ProcessOutcome :=
  let optimizedModifications :=
    applyOptimizations timestamp rawApiConversationHistory liveLog
  let historyAfterOptimizations :=
    applyModificationsToHistory
      (applyContextHistoryUpdates rawApiConversationHistory liveLog)
      optimizedModifications
  let info := getContextWindowInfo cfg.currentModelInfo
  let maxTokensForContext :=
    info.maxAllowedSize - cfg.reservedResponseTokens - cfg.tokenBuffer
  if maxTokensForContext ≤ 0 then
    ⟨rawApiConversationHistory, liveLog,
      calculateTokens tokenizer rawApiConversationHistory, false, liveLog, false⟩
  else
    let tr :=
      applyTruncation tokenizer historyAfterOptimizations optimizedModifications
        maxTokensForContext previousRequestTokenCount cfg.truncationPercentage
        timestamp
    let finalTokensUsed := calculateTokens tokenizer tr.truncatedHistory
    let changed := tr.updatedModifications ≠ liveLog
    ⟨tr.truncatedHistory, tr.updatedModifications, finalTokensUsed,
      tr.wasTruncated, tr.updatedModifications, changed⟩

/-! ### Proof-support definitions -/

/-- Chain a list of functions left to right. -/
def chainFns {α : Type} (fs : List (α → α)) (a : α) : α :=
  fs.foldl (fun x f => f x) a

/-- The actions of an indexed action list aimed at position `j`, in order. -/
def fnsAt {α : Type} (ps : List (Nat × (α → α))) (j : Nat) : List (α → α) :=
  (ps.filter (fun p => p.1 == j)).map (fun p => p.2)

/-- Apply a list of edits to a block, left to right. -/
def foldUpd (us : List ContextUpdate) (b : Block) : Block :=
  us.foldl (fun x u => applyUpdateToBlock u x) b

/-- Strictly ascending numeric keys (the iteration order of a JavaScript
object with integer-like keys). -/
def AscKeys {α : Type} (l : List (Nat × α)) : Prop :=
  (l.map Prod.fst).Chain' (· < ·)

/-- A well-formed persisted log: ascending message keys, and ascending block
keys within every entry. -/
def WfLog (log : EditLog) : Prop :=
  AscKeys log ∧ ∀ e ∈ log, AscKeys e.2.blocks

/-- The non-final occurrences processed by one elider call (path attached),
in processing order. -/
def processedOccurrences (fr : List (String × List FileReadOccurrence)) :
    List (String × FileReadOccurrence) :=
  fr.foldl
    (fun acc pr =>
      if pr.2.length ≤ 1 then acc
      else acc ++ pr.2.dropLast.map (fun o => (pr.1, o)))
    []

/-- Fold `elidePush` over a list of path-tagged occurrences. -/
def foldElide (timestamp : Nat) (rawHistory : List Message)
    (ps : List (String × FileReadOccurrence)) (log : EditLog) : EditLog :=
  ps.foldl (fun a pr => elidePush timestamp rawHistory a pr.1 pr.2) log

/-- What the scanner guarantees about every occurrence it reports: the path
field is the multimap key, the message index is in range, the occurrence's
content block is a text block, and a mention occurrence's `fullMatch` is a
non-empty substring of that text. -/
def OccValid (rawHistory : List Message) (p : String) (o : FileReadOccurrence) :
    Prop :=
  o.filePath = p ∧
  o.messageIndex < rawHistory.length ∧
  ∃ t, blockAt rawHistory o.messageIndex o.blockIndex = some (Block.text t) ∧
    match o.fullMatch with
    | some fm => fm.toList ≠ [] ∧ ∃ b a, t.toList = b ++ fm.toList ++ a
    | none => True

/-- Every occurrence list of the multimap consists of occurrences valid for
its key. -/
def MapValid (rawHistory : List Message)
    (m : List (String × List FileReadOccurrence)) : Prop :=
  ∀ pr ∈ m, ∀ o ∈ pr.2, OccValid rawHistory pr.1 o

/-- A message with a single text block. -/
def mkTextMsg (r : Role) (t : String) : Message :=
  ⟨r, MsgContent.blocks [Block.text t]⟩

/-- Three-message fixture (odd candidate range). -/
def cexHistory3 : List Message :=
  [mkTextMsg Role.user "a", mkTextMsg Role.assistant "b", mkTextMsg Role.user "c"]

/-- Four-message alternating fixture. -/
def wHistory4 : List Message :=
  [mkTextMsg Role.user "a", mkTextMsg Role.assistant "b",
   mkTextMsg Role.user "c", mkTextMsg Role.assistant "d"]

/-- Fixture whose assistant message at index 1 has a `tool_use` first block. -/
def cexHistoryC9 : List Message :=
  [mkTextMsg Role.user "q",
   ⟨Role.assistant, MsgContent.blocks [Block.tool_use "t" none]⟩,
   mkTextMsg Role.user "a", mkTextMsg Role.assistant "b"]

/-- Fixture mixing a tool-result read of `A` (content block 1) with mentions
of `B` inside the same content block, plus a final mention of `B`. -/
def cexHistoryC4 : List Message :=
  [⟨Role.user, MsgContent.blocks
      [Block.text "[read_file for 'A'] Result:",
       Block.text "<file_content path=\"B\">x</file_content>"]⟩,
   mkTextMsg Role.assistant "ok",
   ⟨Role.user, MsgContent.blocks
      [Block.text "[read_file for 'A'] Result:",
       Block.text "<file_content path=\"B\">x</file_content>"]⟩,
   mkTextMsg Role.assistant "ok2",
   mkTextMsg Role.user "<file_content path=\"B\">x</file_content>"]

/-- Live log carrying a prior `replace_content` edit at `(2, 1)`. -/
def cexLogC4 : EditLog :=
  [(2, ⟨Role.user, [(1, [⟨0, UpdateType.replace_content, some "hello", none⟩])]⟩)]

/-- Six-message fixture with a duplicate mention at messages 2 and 4. -/
def cexHistoryC10 : List Message :=
  [mkTextMsg Role.user "a", mkTextMsg Role.assistant "b",
   mkTextMsg Role.user "<file_content path=\"X\">c</file_content>",
   mkTextMsg Role.assistant "d",
   mkTextMsg Role.user "<file_content path=\"X\">c</file_content>",
   mkTextMsg Role.assistant "e"]

/-- Live log already carrying a truncation notice at `(1, 0)`. -/
def cexLogC10 : EditLog :=
  [(1, ⟨Role.assistant, [(0, [⟨0, UpdateType.add_truncation_notice, none, none⟩])]⟩)]

/-- Configuration with a 200 000 window and the default reserve and buffer. -/
def cexCfg : CMConfig := ⟨1/2, 1000, 500, some ⟨some 200000⟩⟩

/-- Rollback fixture: edits at `(0,0)` with timestamps 1 and 3, and at
`(1,0)` with timestamp 2 (spec §8 scenario 6). -/
def wLogC7 : EditLog :=
  [(0, ⟨Role.user,
      [(0, [⟨1, UpdateType.replace_content, some "p", none⟩,
            ⟨3, UpdateType.replace_content, some "q", none⟩])]⟩),
   (1, ⟨Role.assistant,
      [(0, [⟨2, UpdateType.replace_content, some "r", none⟩])]⟩)]

/-- Ascending-key log with entries below, inside and above an evicted range. -/
def wLogC3 : EditLog :=
  [(1, ⟨Role.assistant, [(0, [⟨3, UpdateType.add_truncation_notice, none, none⟩])]⟩),
   (2, ⟨Role.user, [(0, [⟨4, UpdateType.replace_content, some "u", none⟩])]⟩),
   (5, ⟨Role.user, [(1, [⟨5, UpdateType.replace_content, some "v", none⟩])]⟩)]

/-! ## Lemmas and theorems -/

/-! ### Association-list and pointwise-application lemmas -/

theorem find?_setSorted {α : Type} (k k' : Nat) (v : α) (l : List (Nat × α)) :
    (setSorted k v l).find? (fun e => e.1 == k') =
      if k' = k then some (k, v) else l.find? (fun e => e.1 == k') := by
  induction l with
  | nil =>
    by_cases h : k' = k
    · subst h
      simp [setSorted, List.find?]
    · have hb : (k == k') = false := by simp [Ne.symm h]
      simp [setSorted, List.find?, hb, h]
  | cons hd tl ih =>
    obtain ⟨k1, v1⟩ := hd
    simp only [setSorted]
    by_cases h1 : k < k1
    · simp only [if_pos h1]
      by_cases h : k' = k
      · subst h
        simp [List.find?]
      · have hb : (k == k') = false := by simp [Ne.symm h]
        simp [List.find?, hb, h]
    · simp only [if_neg h1]
      by_cases h2 : k = k1
      · subst h2
        simp only [if_pos rfl]
        by_cases h : k' = k
        · subst h
          simp [List.find?]
        · have hb : (k == k') = false := by simp [Ne.symm h]
          simp [List.find?, hb, h]
      · simp only [if_neg h2]
        by_cases h : k' = k1
        · subst h
          have hk : ¬ k' = k := fun hc => h2 hc.symm
          simp [List.find?, hk]
        · have hb : (k1 == k') = false := by simp [Ne.symm h]
          simp [List.find?, hb, ih]

theorem lookupEntry_setEntry (log : EditLog) (k k' : Nat) (v : MessageUpdates) :
    lookupEntry (setEntry log k v) k' = if k' = k then some v else lookupEntry log k' := by
  unfold lookupEntry setEntry
  rw [find?_setSorted]
  by_cases h : k' = k <;> simp [h]

theorem lookupBM_setBM (bm : BlockMap) (k k' : Nat) (v : List ContextUpdate) :
    lookupBM (setBM bm k v) k' = if k' = k then v else lookupBM bm k' := by
  unfold lookupBM setBM
  rw [find?_setSorted]
  by_cases h : k' = k <;> simp [h]

theorem lookupBlock_setEntry (log : EditLog) (k : Nat) (mu : MessageUpdates)
    (i b : Nat) :
    lookupBlock (setEntry log k mu) i b =
      if i = k then lookupBM mu.blocks b else lookupBlock log i b := by
  unfold lookupBlock
  rw [lookupEntry_setEntry]
  by_cases h : i = k <;> simp [h]

theorem getElem?_modifyAt {α : Type} (l : List α) (i j : Nat) (f : α → α) :
    (modifyAt l i f)[j]? = if j = i then l[j]?.map f else l[j]? := by
  unfold modifyAt
  cases h : l[i]? with
  | none =>
    by_cases hj : j = i
    · subst hj
      simp [h]
    · simp [hj]
  | some a =>
    obtain ⟨hlt, hget⟩ := List.getElem?_eq_some.mp h
    rw [List.getElem?_set]
    by_cases hj : j = i
    · subst hj
      simp [hlt, h, hget]
    · simp [Ne.symm hj, hj]

theorem length_modifyAt {α : Type} (l : List α) (i : Nat) (f : α → α) :
    (modifyAt l i f).length = l.length := by
  unfold modifyAt
  cases h : l[i]? <;> simp

theorem applySteps_append {α : Type} (ps qs : List (Nat × (α → α))) (l : List α) :
    applySteps (ps ++ qs) l = applySteps qs (applySteps ps l) := by
  unfold applySteps
  exact List.foldl_append _ _ _ _

theorem chainFns_append {α : Type} (fs gs : List (α → α)) (a : α) :
    chainFns (fs ++ gs) a = chainFns gs (chainFns fs a) := by
  unfold chainFns
  exact List.foldl_append _ _ _ _

theorem fnsAt_append {α : Type} (ps qs : List (Nat × (α → α))) (j : Nat) :
    fnsAt (ps ++ qs) j = fnsAt ps j ++ fnsAt qs j := by
  unfold fnsAt
  rw [List.filter_append, List.map_append]

theorem getElem?_applySteps {α : Type} (ps : List (Nat × (α → α))) (l : List α)
    (j : Nat) :
    (applySteps ps l)[j]? = (l[j]?).map (chainFns (fnsAt ps j)) := by
  induction ps generalizing l with
  | nil =>
    cases h : l[j]? <;> simp [applySteps, fnsAt, chainFns, h]
  | cons p ps ih =>
    have step : applySteps (p :: ps) l = applySteps ps (modifyAt l p.1 p.2) := rfl
    rw [step, ih, getElem?_modifyAt]
    by_cases h : j = p.1
    · have hb : (p.1 == j) = true := by simp [h]
      have hf : fnsAt (p :: ps) j = p.2 :: fnsAt ps j := by
        simp [fnsAt, List.filter_cons, hb]
      rw [hf, if_pos h]
      cases hl : l[j]? <;> simp [chainFns, hl]
    · have hb : (p.1 == j) = false := by simp [Ne.symm h]
      have hf : fnsAt (p :: ps) j = fnsAt ps j := by
        simp [fnsAt, List.filter_cons, hb]
      rw [hf, if_neg h]

theorem length_applySteps {α : Type} (ps : List (Nat × (α → α))) (l : List α) :
    (applySteps ps l).length = l.length := by
  induction ps generalizing l with
  | nil => rfl
  | cons p ps ih =>
    have step : applySteps (p :: ps) l = applySteps ps (modifyAt l p.1 p.2) := rfl
    rw [step, ih, length_modifyAt]

/-! ### String lemmas -/

theorem toList_append (a b : String) : (a ++ b).toList = a.toList ++ b.toList :=
  String.data_append a b

theorem strStartsWith_of_toList (s pre : String) (r : List Char)
    (h : s.toList = pre.toList ++ r) : strStartsWith s pre = true := by
  unfold strStartsWith
  rw [h, List.take_left]
  exact beq_self_eq_true _

theorem splitAtSub_eq_some (pat : List Char) :
    ∀ (l b a : List Char), splitAtSub pat l = some (b, a) → l = b ++ pat ++ a := by
  intro l
  induction l with
  | nil =>
    intro b a h
    by_cases hp : pat = []
    · simp [splitAtSub, hp] at h
      simp [hp, h.1, h.2]
    · simp [splitAtSub, hp] at h
  | cons c rest ih =>
    intro b a h
    by_cases ht : (c :: rest).take pat.length = pat
    · unfold splitAtSub at h
      rw [if_pos ht] at h
      injection h with h'
      obtain ⟨hb, ha⟩ := Prod.mk.injEq _ _ _ _ ▸ h'
      have := List.take_append_drop pat.length (c :: rest)
      subst hb
      subst ha
      simpa [ht] using this.symm
    · unfold splitAtSub at h
      rw [if_neg ht] at h
      cases hs : splitAtSub pat rest with
      | none => rw [hs] at h; exact absurd h (by simp)
      | some pr =>
        obtain ⟨b', a'⟩ := pr
        rw [hs] at h
        injection h with h'
        obtain ⟨hb, ha⟩ := Prod.mk.injEq _ _ _ _ ▸ h'
        have hrest := ih b' a' hs
        subst hb
        subst ha
        simp [hrest]

theorem splitAtSub_ne_none (pat : List Char) :
    ∀ (b a : List Char), splitAtSub pat (b ++ pat ++ a) ≠ none := by
  intro b
  induction b with
  | nil =>
    intro a
    cases hl : pat ++ a with
    | nil =>
      have hp : pat = [] := (List.append_eq_nil.mp hl).1
      have ha : a = [] := (List.append_eq_nil.mp hl).2
      simp [splitAtSub, hp, ha]
    | cons c rest =>
      have htake : (c :: rest).take pat.length = pat := by
        rw [← hl, List.take_left]
      simp only [List.nil_append, hl]
      unfold splitAtSub
      rw [if_pos htake]
      simp
  | cons c b' ih =>
    intro a
    simp only [List.cons_append]
    unfold splitAtSub
    by_cases ht : (c :: (b' ++ pat ++ a)).take pat.length = pat
    · rw [if_pos ht]
      simp
    · rw [if_neg ht]
      cases hs : splitAtSub pat (b' ++ pat ++ a) with
      | none => exact absurd hs (ih a)
      | some pr => simp

theorem strHasSub_trans (s t u : String) (h1 : strHasSub s t) (h2 : strHasSub t u) :
    strHasSub s u := by
  obtain ⟨b, a, hba⟩ := h1
  obtain ⟨b', a', hba'⟩ := h2
  exact ⟨b ++ b', a' ++ a, by rw [hba, hba']; simp⟩

theorem strHasSub_replaceFirst (s pat rep : String) (h : strHasSub s pat) :
    strHasSub (replaceFirst s pat rep) rep := by
  obtain ⟨b, a, hba⟩ := h
  unfold replaceFirst
  cases hs : splitAtSub pat.toList s.toList with
  | none =>
    exact absurd hs (by rw [hba]; exact splitAtSub_ne_none _ _ _)
  | some pr =>
    obtain ⟨b', a'⟩ := pr
    exact ⟨b', a', rfl⟩

theorem strHasSub_append_left (x y z : String) :
    strHasSub (x ++ y ++ z) y := by
  exact ⟨x.toList, z.toList, by rw [toList_append, toList_append]⟩

/-! ### Applier: pointwise characterization -/

theorem set_getElem_self {α : Type} (l : List α) (i : Nat) (a : α)
    (h : l[i]? = some a) : l.set i a = l := by
  apply List.ext_getElem?
  intro n
  rw [List.getElem?_set]
  by_cases hn : i = n
  · subst hn
    obtain ⟨hlt, _⟩ := List.getElem?_eq_some.mp h
    simp [hlt, h]
  · simp [hn]

theorem applyMods_eq_applySteps (h : List Message) (L : EditLog) :
    applyModificationsToHistory h L =
      applySteps (L.map (fun e => (e.1, applyEntryToMessage e.2))) h := by
  unfold applyModificationsToHistory applySteps
  rw [List.foldl_map]
  congr 1
  funext acc e
  show _ = modifyAt acc e.1 (applyEntryToMessage e.2)
  unfold modifyAt
  cases hm : acc[e.1]? with
  | none => rfl
  | some msg =>
    show (match msg.content with
          | MsgContent.str _ => acc
          | MsgContent.blocks _ => acc.set e.1 (applyEntryToMessage e.2 msg)) =
        acc.set e.1 (applyEntryToMessage e.2 msg)
    cases hc : msg.content with
    | str s =>
      have hid : applyEntryToMessage e.2 msg = msg := by
        unfold applyEntryToMessage
        rw [hc]
      rw [hid, set_getElem_self acc _ _ hm]
    | blocks bs => rfl

theorem getElem?_applyMods (h : List Message) (L : EditLog) (j : Nat) :
    (applyModificationsToHistory h L)[j]? =
      (h[j]?).map
        (chainFns (fnsAt (L.map (fun e => (e.1, applyEntryToMessage e.2))) j)) := by
  rw [applyMods_eq_applySteps, getElem?_applySteps]

theorem fnsAt_map {α β : Type} (g : β → α → α) (ps : List (Nat × β)) (j : Nat) :
    fnsAt (ps.map (fun e => (e.1, g e.2))) j =
      ((ps.filter (fun e => e.1 == j)).map (fun e => e.2)).map g := by
  induction ps with
  | nil => rfl
  | cons p ps ih =>
    by_cases hb : (p.1 == j) = true
    · simp only [List.map_cons, fnsAt, List.filter_cons, hb] at *
      simp only [if_pos trivial]
      simp [← ih, fnsAt]
    · simp only [List.map_cons, fnsAt, List.filter_cons, hb] at *
      simp only [Bool.false_eq_true, if_false]
      simpa [fnsAt] using ih

theorem chainFns_entries_str (mus : List MessageUpdates) (m : Message) (s : String)
    (hc : m.content = MsgContent.str s) :
    chainFns (mus.map applyEntryToMessage) m = m := by
  induction mus generalizing m with
  | nil => rfl
  | cons mu mus ih =>
    have step : chainFns ((mu :: mus).map applyEntryToMessage) m =
        chainFns (mus.map applyEntryToMessage) (applyEntryToMessage mu m) := rfl
    have hid : applyEntryToMessage mu m = m := by
      unfold applyEntryToMessage
      rw [hc]
    rw [step, hid, ih m hc]

theorem chainFns_entries_blocks (mus : List MessageUpdates) (m : Message)
    (bs : List Block) (hc : m.content = MsgContent.blocks bs) :
    chainFns (mus.map applyEntryToMessage) m =
      { m with content := MsgContent.blocks (applySteps ((mus.map blockStepsOf).flatten) bs) } := by
  induction mus generalizing m bs with
  | nil =>
    cases m with
    | mk role content =>
      simp only [List.map_nil] at *
      subst hc
      rfl
  | cons mu mus ih =>
    have step : chainFns ((mu :: mus).map applyEntryToMessage) m =
        chainFns (mus.map applyEntryToMessage) (applyEntryToMessage mu m) := rfl
    have happ : applyEntryToMessage mu m =
        { m with content := MsgContent.blocks (applySteps (blockStepsOf mu) bs) } := by
      unfold applyEntryToMessage
      rw [hc]
    rw [step, happ, ih _ _ rfl]
    simp [List.flatten_cons, applySteps_append]

/-! ### Applier: per-block classification and idempotence -/

theorem stepU_nontext (u : ContextUpdate) (b : Block)
    (hb : ∀ t, b ≠ Block.text t) : applyUpdateToBlock u b = b := by
  obtain ⟨ts, ut, ct, md⟩ := u
  cases b with
  | text t => exact absurd rfl (hb t)
  | image => cases ut <;> cases ct <;> rfl
  | tool_use n i => cases ut <;> cases ct <;> rfl
  | tool_result c => cases ut <;> cases ct <;> rfl

theorem stepU_text_to_text (u : ContextUpdate) (t : String) :
    ∃ t', applyUpdateToBlock u (Block.text t) = Block.text t' := by
  obtain ⟨ts, ut, ct, md⟩ := u
  cases ut with
  | replace_content =>
    cases ct with
    | some s => exact ⟨s, rfl⟩
    | none => exact ⟨t, rfl⟩
  | add_truncation_notice =>
    by_cases hs : strStartsWith t contextTruncationNotice
    · exact ⟨t, by simp [applyUpdateToBlock, hs]⟩
    · exact ⟨contextTruncationNotice ++ "\n" ++ t, by simp [applyUpdateToBlock, hs]⟩
  | other => exact ⟨t, rfl⟩

theorem stepU_notice_eq (u : ContextUpdate)
    (hu : u.updateType = UpdateType.add_truncation_notice) (b : Block) :
    applyUpdateToBlock u b = applyUpdateToBlock (noticeUpdate 0) b := by
  obtain ⟨ts, ut, ct, md⟩ := u
  simp only at hu
  subst hu
  rfl

theorem noticeFn_startsWith (t : String) :
    ∃ t', applyUpdateToBlock (noticeUpdate 0) (Block.text t) = Block.text t' ∧
      strStartsWith t' contextTruncationNotice = true := by
  by_cases hs : strStartsWith t contextTruncationNotice
  · exact ⟨t, by simp [applyUpdateToBlock, noticeUpdate, hs], hs⟩
  · refine ⟨contextTruncationNotice ++ "\n" ++ t,
      by simp [applyUpdateToBlock, noticeUpdate, hs], ?_⟩
    apply strStartsWith_of_toList _ _ (("\n" ++ t).toList)
    rw [toList_append, toList_append, List.append_assoc, ← toList_append]

theorem noticeFn_idem (t : String) :
    applyUpdateToBlock (noticeUpdate 0)
        (applyUpdateToBlock (noticeUpdate 0) (Block.text t)) =
      applyUpdateToBlock (noticeUpdate 0) (Block.text t) := by
  obtain ⟨t', ht', hstart⟩ := noticeFn_startsWith t
  rw [ht']
  simp [applyUpdateToBlock, noticeUpdate, hstart]

theorem stepU_class (u : ContextUpdate) :
    (∀ t, applyUpdateToBlock u (Block.text t) = Block.text t) ∨
    (u.updateType = UpdateType.add_truncation_notice) ∨
    (∃ s, ∀ t, applyUpdateToBlock u (Block.text t) = Block.text s) := by
  obtain ⟨ts, ut, ct, md⟩ := u
  cases ut with
  | replace_content =>
    cases ct with
    | some s => exact Or.inr (Or.inr ⟨s, fun t => rfl⟩)
    | none => exact Or.inl (fun t => rfl)
  | add_truncation_notice => exact Or.inr (Or.inl rfl)
  | other => exact Or.inl (fun t => rfl)

theorem foldUpd_nontext (us : List ContextUpdate) (b : Block)
    (hb : ∀ t, b ≠ Block.text t) : foldUpd us b = b := by
  induction us with
  | nil => rfl
  | cons u us ih =>
    have step : foldUpd (u :: us) b = foldUpd us (applyUpdateToBlock u b) := rfl
    rw [step, stepU_nontext u b hb, ih]

theorem foldUpd_snoc (us : List ContextUpdate) (u : ContextUpdate) (b : Block) :
    foldUpd (us ++ [u]) b = applyUpdateToBlock u (foldUpd us b) := by
  unfold foldUpd
  rw [List.foldl_append]
  rfl

theorem foldUpd_text_is_text (us : List ContextUpdate) (t : String) :
    ∃ t', foldUpd us (Block.text t) = Block.text t' := by
  induction us generalizing t with
  | nil => exact ⟨t, rfl⟩
  | cons u us ih =>
    have step : foldUpd (u :: us) (Block.text t) =
        foldUpd us (applyUpdateToBlock u (Block.text t)) := rfl
    obtain ⟨t1, ht1⟩ := stepU_text_to_text u t
    rw [step, ht1]
    exact ih t1

theorem foldUpd_class (us : List ContextUpdate) :
    (∀ t, foldUpd us (Block.text t) = Block.text t) ∨
    (∀ t, foldUpd us (Block.text t) =
        applyUpdateToBlock (noticeUpdate 0) (Block.text t)) ∨
    (∃ v, ∀ t, foldUpd us (Block.text t) = Block.text v) := by
  induction us using List.reverseRecOn with
  | nil => exact Or.inl (fun t => rfl)
  | append_singleton us u ih =>
    rcases stepU_class u with hid | hn | ⟨s, hs⟩
    · rcases ih with h1 | h2 | ⟨v, hv⟩
      · refine Or.inl (fun t => ?_)
        rw [foldUpd_snoc, h1 t, hid t]
      · refine Or.inr (Or.inl (fun t => ?_))
        rw [foldUpd_snoc, h2 t]
        obtain ⟨t', ht', _⟩ := noticeFn_startsWith t
        rw [ht', hid t']
      · refine Or.inr (Or.inr ⟨v, fun t => ?_⟩)
        rw [foldUpd_snoc, hv t, hid v]
    · rcases ih with h1 | h2 | ⟨v, hv⟩
      · refine Or.inr (Or.inl (fun t => ?_))
        rw [foldUpd_snoc, h1 t, stepU_notice_eq u hn]
      · refine Or.inr (Or.inl (fun t => ?_))
        rw [foldUpd_snoc, h2 t, stepU_notice_eq u hn, noticeFn_idem t]
      · obtain ⟨v', hv', _⟩ := noticeFn_startsWith v
        refine Or.inr (Or.inr ⟨v', fun t => ?_⟩)
        rw [foldUpd_snoc, hv t, stepU_notice_eq u hn, hv']
    · refine Or.inr (Or.inr ⟨s, fun t => ?_⟩)
      obtain ⟨t', ht'⟩ := foldUpd_text_is_text us t
      rw [foldUpd_snoc, ht', hs t']

theorem foldUpd_idem (us : List ContextUpdate) (b : Block) :
    foldUpd us (foldUpd us b) = foldUpd us b := by
  cases b with
  | text t =>
    rcases foldUpd_class us with h1 | h2 | ⟨v, hv⟩
    · rw [h1 t, h1 t]
    · rw [h2 t]
      obtain ⟨t', ht', hstart⟩ := noticeFn_startsWith t
      rw [ht', h2 t']
      simp [applyUpdateToBlock, noticeUpdate, hstart]
    · rw [hv t, hv v]
  | image =>
    have h := foldUpd_nontext us Block.image (by intro t h; cases h)
    rw [h, h]
  | tool_use n i =>
    have h := foldUpd_nontext us (Block.tool_use n i) (by intro t h; cases h)
    rw [h, h]
  | tool_result c =>
    have h := foldUpd_nontext us (Block.tool_result c) (by intro t h; cases h)
    rw [h, h]

theorem blockStepsOf_shape (mu : MessageUpdates) :
    ∀ p ∈ blockStepsOf mu, ∃ u, p.2 = applyUpdateToBlock u := by
  intro p hp
  unfold blockStepsOf at hp
  obtain ⟨bu, _, heq⟩ := List.mem_filterMap.mp hp
  obtain ⟨u, _, hpe⟩ := Option.map_eq_some'.mp heq
  exact ⟨u, by rw [← hpe]⟩

theorem fnsAt_shape {S : List (Nat × (Block → Block))}
    (hS : ∀ p ∈ S, ∃ u, p.2 = applyUpdateToBlock u) (b : Nat) :
    ∃ us : List ContextUpdate, fnsAt S b = us.map applyUpdateToBlock := by
  induction S with
  | nil => exact ⟨[], rfl⟩
  | cons p S ih =>
    obtain ⟨us, hus⟩ := ih (fun q hq => hS q (List.mem_cons_of_mem p hq))
    by_cases hb : (p.1 == b) = true
    · obtain ⟨u, hu⟩ := hS p (List.mem_cons_self p S)
      refine ⟨u :: us, ?_⟩
      have hf : fnsAt (p :: S) b = p.2 :: fnsAt S b := by
        simp [fnsAt, List.filter_cons, hb]
      rw [hf, hus, hu, List.map_cons]
    · refine ⟨us, ?_⟩
      have hf : fnsAt (p :: S) b = fnsAt S b := by
        simp [fnsAt, List.filter_cons, hb]
      rw [hf, hus]

theorem chainFns_map_stepU (us : List ContextUpdate) (b : Block) :
    chainFns (us.map applyUpdateToBlock) b = foldUpd us b := by
  unfold chainFns foldUpd
  rw [List.foldl_map]

theorem applySteps_blocks_idem (S : List (Nat × (Block → Block)))
    (hS : ∀ p ∈ S, ∃ u, p.2 = applyUpdateToBlock u) (bs : List Block) :
    applySteps S (applySteps S bs) = applySteps S bs := by
  apply List.ext_getElem?
  intro b
  rw [getElem?_applySteps, getElem?_applySteps]
  obtain ⟨us, hus⟩ := fnsAt_shape hS b
  cases hb : bs[b]? with
  | none => rfl
  | some c =>
    simp only [Option.map_some']
    rw [hus, chainFns_map_stepU, chainFns_map_stepU, foldUpd_idem]

theorem chainM_idem (mus : List MessageUpdates) (m : Message) :
    chainFns (mus.map applyEntryToMessage)
        (chainFns (mus.map applyEntryToMessage) m) =
      chainFns (mus.map applyEntryToMessage) m := by
  cases hc : m.content with
  | str s =>
    rw [chainFns_entries_str mus m s hc, chainFns_entries_str mus m s hc]
  | blocks bs =>
    have hShape : ∀ p ∈ (mus.map blockStepsOf).flatten, ∃ u, p.2 = applyUpdateToBlock u := by
      intro p hp
      obtain ⟨l, hl, hpl⟩ := List.mem_flatten.mp hp
      obtain ⟨mu, _, hmu⟩ := List.mem_map.mp hl
      exact blockStepsOf_shape mu p (hmu ▸ hpl)
    rw [chainFns_entries_blocks mus m bs hc]
    rw [chainFns_entries_blocks mus _ (applySteps ((mus.map blockStepsOf).flatten) bs) rfl]
    rw [applySteps_blocks_idem _ hShape bs]

/-- **C1** (confirmed).  Applier idempotence: for every raw history `H` and
every edit log `L`, applying the edit log twice yields the same prepared
history as applying it once —
`applyModificationsToHistory(applyModificationsToHistory(H, L), L) =
applyModificationsToHistory(H, L)`.  In particular the truncation-notice
prepend is guarded by a prefix check (`block.text.startsWith(notice)`), so a
notice is never prefixed twice. -/
theorem applyModificationsToHistory_idempotent (H : List Message) (L : EditLog) :
    applyModificationsToHistory (applyModificationsToHistory H L) L =
      applyModificationsToHistory H L := by
  apply List.ext_getElem?
  intro j
  rw [getElem?_applyMods (applyModificationsToHistory H L) L j]
  rw [getElem?_applyMods H L j]
  rw [fnsAt_map applyEntryToMessage L j]
  cases hj : H[j]? with
  | none => rfl
  | some m =>
    simp only [Option.map_some']
    exact congrArg some (chainM_idem _ m)

/-! ### C6: budget oracle policy -/

/-- **C6** (confirmed).  Budget oracle policy: an absent or zero (falsy)
`contextWindow` yields window 128 000 handled by the 128 000 rule
(`128 000 − 30 000`); window 64 000 yields `64 000 − 27 000`; 128 000 yields
`128 000 − 30 000`; 200 000 yields `200 000 − 40 000`; any other window `W`
yields `W − max(0.2·W, 40 000)` clamped to `max(·, W/2, 1 000)`. -/
theorem getContextWindowInfo_policy :
    (getContextWindowInfo none = ⟨128000, 98000⟩) ∧
    (∀ mi : ModelInfo, (mi.contextWindow = none ∨ mi.contextWindow = some 0) →
        getContextWindowInfo (some mi) = ⟨128000, 98000⟩) ∧
    (getContextWindowInfo (some ⟨some 64000⟩) = ⟨64000, 37000⟩) ∧
    (getContextWindowInfo (some ⟨some 128000⟩) = ⟨128000, 98000⟩) ∧
    (getContextWindowInfo (some ⟨some 200000⟩) = ⟨200000, 160000⟩) ∧
    (∀ W : Rat, W ≠ 0 → W ≠ 64000 → W ≠ 128000 → W ≠ 200000 →
        getContextWindowInfo (some ⟨some W⟩) =
          ⟨W, max (max (W - max (W * (2/10)) 40000) (W / 2)) 1000⟩) := by
  refine ⟨by norm_num [getContextWindowInfo], ?_, by norm_num [getContextWindowInfo],
    by norm_num [getContextWindowInfo], by norm_num [getContextWindowInfo], ?_⟩
  · rintro mi (h | h) <;>
      (obtain ⟨cw⟩ := mi; simp only at h; subst h; norm_num [getContextWindowInfo])
  · intro W h0 h64 h128 h200
    simp only [getContextWindowInfo, if_neg h0, if_neg h64, if_neg h128, if_neg h200]

/-- Witness for C6: the absent-window rule and the default rule at 100 000. -/
theorem getContextWindowInfo_policy_witness :
    getContextWindowInfo (some ⟨none⟩) = ⟨128000, 98000⟩ ∧
    getContextWindowInfo (some ⟨some 100000⟩) = ⟨100000, 60000⟩ := by
  constructor
  · exact getContextWindowInfo_policy.2.1 ⟨none⟩ (Or.inl rfl)
  · rw [getContextWindowInfo_policy.2.2.2.2.2 100000 (by norm_num) (by norm_num)
      (by norm_num) (by norm_num)]
    norm_num

/-! ### C5: truncation trigger -/

/-- **C5** (confirmed).  Truncation trigger: `applyTruncation` truncates
(`wasTruncated = true`) iff the previous request's token count strictly
exceeds the limit; when it does not, history and edit log are returned
unchanged with `wasTruncated = false`; and the tokenizer (hence the estimated
size of the current history, which the source computes into an unused local)
never influences the result. -/
theorem applyTruncation_trigger (tokenizer : String → Nat) (H : List Message)
    (L : EditLog) (maxTokens P phi : Rat) (now : Nat) :
    ((applyTruncation tokenizer H L maxTokens P phi now).wasTruncated = true ↔
        maxTokens < P) ∧
    (P ≤ maxTokens → applyTruncation tokenizer H L maxTokens P phi now = ⟨H, L, false⟩) ∧
    (∀ tokenizer2 : String → Nat,
        applyTruncation tokenizer H L maxTokens P phi now =
          applyTruncation tokenizer2 H L maxTokens P phi now) := by
  refine ⟨?_, ?_, ?_⟩
  · by_cases h : maxTokens < P
    · simp only [applyTruncation, gt_iff_lt, if_pos h]
      constructor
      · intro _
        exact h
      · intro _
        split <;> rfl
    · simp only [applyTruncation, gt_iff_lt, if_neg h]
      simp [h]
  · intro h
    simp only [applyTruncation, gt_iff_lt, if_neg (not_lt.mpr h)]
  · intro tokenizer2
    rfl

/-- Witness for C5: a previous count within the limit is a no-op. -/
theorem applyTruncation_trigger_witness :
    (0 : Rat) ≤ 5 ∧
    applyTruncation (fun s => s.length) cexHistory3 [] 5 0 (1/2) 3 =
      ⟨cexHistory3, [], false⟩ :=
  ⟨by norm_num,
   (applyTruncation_trigger (fun s => s.length) cexHistory3 [] 5 0 (1/2) 3).2.1
     (by norm_num)⟩

/-! ### C2: eviction window -/

theorem applyTruncation_of_lt (tokenizer : String → Nat) (H : List Message)
    (L : EditLog) (maxTokens P phi : Rat) (now : Nat) (h : maxTokens < P) :
    applyTruncation tokenizer H L maxTokens P phi now =
      if H.length > 2 then
        ⟨H.take 2 ++ H.drop (2 + (removalCount H.length phi).toNat),
         adjustModificationIndices (removalCount H.length phi).toNat
           (if (H.take 2 ++ H.drop (2 + (removalCount H.length phi).toNat)).length > 1
            then addTruncationNoticeEdit H L now
            else L),
         true⟩
      else ⟨H, L, true⟩ := by
  simp only [applyTruncation, gt_iff_lt, if_pos h]

theorem removalCount_3_half : removalCount 3 (1/2) = 1 := by
  unfold removalCount
  have hc : ⌈(((3 : Int) - 2 : Int) : Rat) * (1/2)⌉ = (1 : Int) := by
    have : (((3 : Int) - 2 : Int) : Rat) * (1/2) = 1/2 := by norm_num
    rw [this, Int.ceil_eq_iff]
    norm_num
  norm_num at hc ⊢
  rw [hc]
  decide

/-- **C2** counterexample: on the 3-message history with φ = 1/2 a triggered
truncation evicts exactly **one** message — an odd count (the clip to
`N − 2 = 1` binds) — refuting unconditional eviction parity. -/
theorem applyTruncation_eviction_parity_cex :
    (applyTruncation (fun _ => 0) cexHistory3 [] 0 1 (1/2) 0).wasTruncated = true ∧
    cexHistory3.length -
        (applyTruncation (fun _ => 0) cexHistory3 [] 0 1 (1/2) 0).truncatedHistory.length
      = 1 ∧
    ¬ 2 ∣ (cexHistory3.length -
        (applyTruncation (fun _ => 0) cexHistory3 [] 0 1 (1/2) 0).truncatedHistory.length) := by
  have heval := applyTruncation_of_lt (fun _ => 0) cexHistory3 [] 0 1 (1/2) 0 (by norm_num)
  rw [if_pos (by decide : cexHistory3.length > 2)] at heval
  have hlen : cexHistory3.length = 3 := rfl
  rw [hlen, removalCount_3_half] at heval
  rw [heval]
  decide

/-- **C2** (corrected).  Amended claim, as proved: whenever truncation is
triggered (`P > maxTokens`) on a history with more than 2 messages and a
positive truncation fraction, the preserved prefix is exactly the first two
messages and the remaining tail is the contiguous original suffix; the number
evicted equals `ceil((N−2)·φ)` rounded up to the next even integer and then
clipped to `N−2`; that count is even whenever `N` is even (in particular
whenever the clip does not bind), but it is odd when the clip binds at an odd
`N−2` (see the counterexample). -/
theorem applyTruncation_eviction_amended (tokenizer : String → Nat)
    (H : List Message) (L : EditLog) (maxTokens P phi : Rat) (now : Nat)
    (hP : maxTokens < P) (hN : 2 < H.length) (hphi : 0 < phi) :
    (applyTruncation tokenizer H L maxTokens P phi now).truncatedHistory =
        H.take 2 ++ H.drop (2 + (removalCount H.length phi).toNat) ∧
    (applyTruncation tokenizer H L maxTokens P phi now).truncatedHistory.length =
        H.length - (removalCount H.length phi).toNat ∧
    removalCount H.length phi =
        min (if ⌈(((H.length : Int) - 2 : Int) : Rat) * phi⌉ % 2 ≠ 0
             then ⌈(((H.length : Int) - 2 : Int) : Rat) * phi⌉ + 1
             else ⌈(((H.length : Int) - 2 : Int) : Rat) * phi⌉)
          ((H.length : Int) - 2) ∧
    (H.length % 2 = 0 → (removalCount H.length phi).toNat % 2 = 0) := by
  have heval := applyTruncation_of_lt tokenizer H L maxTokens P phi now hP
  rw [if_pos (by omega : H.length > 2)] at heval
  have hm0pos : 0 < ⌈(((H.length : Int) - 2 : Int) : Rat) * phi⌉ := by
    apply Int.ceil_pos.mpr
    apply mul_pos _ hphi
    have : (0 : Int) < (H.length : Int) - 2 := by omega
    exact_mod_cast this
  have hrle : removalCount H.length phi ≤ (H.length : Int) - 2 := by
    unfold removalCount
    exact min_le_right _ _
  refine ⟨?_, ?_, rfl, ?_⟩
  · rw [heval]
  · rw [heval]
    have h2 : (removalCount H.length phi).toNat ≤ H.length - 2 := by omega
    simp only [List.length_append, List.length_take, List.length_drop]
    omega
  · intro hNe
    simp only [removalCount]
    by_cases hodd : ⌈(((H.length : Int) - 2 : Int) : Rat) * phi⌉ % 2 ≠ 0
    · rw [if_pos hodd]
      omega
    · rw [if_neg hodd]
      omega

/-- Witness for the amended C2 at a 4-message history with φ = 1/2. -/
theorem applyTruncation_eviction_amended_witness :
    (0 : Rat) < 1 ∧ 2 < wHistory4.length ∧ (0 : Rat) < 1/2 ∧
    (applyTruncation (fun _ => 0) wHistory4 [] 0 1 (1/2) 0).truncatedHistory =
      wHistory4.take 2 ++ wHistory4.drop (2 + (removalCount wHistory4.length (1/2)).toNat) := by
  refine ⟨by norm_num, by decide, by norm_num, ?_⟩
  exact (applyTruncation_eviction_amended (fun _ => 0) wHistory4 [] 0 1 (1/2) 0
    (by norm_num) (by decide) (by norm_num)).1

/-! ### C3: index rewrite -/

theorem foldl_append_form {α β : Type} (g : β → List α) (L : List β) :
    ∀ acc : List α,
      L.foldl (fun a e => a ++ g e) acc = acc ++ L.foldl (fun a e => a ++ g e) [] := by
  induction L with
  | nil => simp
  | cons e L ih =>
    intro acc
    simp only [List.foldl_cons]
    rw [ih (acc ++ g e), ih ([] ++ g e)]
    simp [List.append_assoc]

theorem adjustModificationIndices_eq_foldl (r : Nat) (L : EditLog) :
    adjustModificationIndices r L =
      L.foldl
        (fun a e => a ++
          (if e.1 < 2 then [(e.1, e.2)]
           else if e.1 > 2 + r - 1 then [(e.1 - r, e.2)] else []))
        [] := by
  unfold adjustModificationIndices
  congr 1
  funext a e
  by_cases h1 : e.1 < 2
  · simp [h1]
  · by_cases h2 : e.1 > 2 + r - 1
    · have h2' : 1 + r < e.1 := by omega
      simp [h1, h2, h2']
    · have h2' : ¬ (1 + r < e.1) := by omega
      simp [h1, h2, h2']

theorem adjustModificationIndices_cons (r : Nat) (e : Nat × MessageUpdates)
    (L : EditLog) :
    adjustModificationIndices r (e :: L) =
      (if e.1 < 2 then [(e.1, e.2)]
       else if e.1 > 2 + r - 1 then [(e.1 - r, e.2)] else [])
        ++ adjustModificationIndices r L := by
  rw [adjustModificationIndices_eq_foldl, adjustModificationIndices_eq_foldl]
  simp only [List.foldl_cons, List.nil_append]
  exact foldl_append_form _ L _

theorem adjustModificationIndices_spec_aux (remove : Nat) :
    ∀ L : EditLog, L.Pairwise (fun a b => a.1 < b.1) →
      adjustModificationIndices remove L =
        L.filter (fun e => decide (e.1 < 2)) ++
          (L.filter (fun e => decide (2 + remove ≤ e.1))).map
            (fun e => (e.1 - remove, e.2)) := by
  intro L
  induction L with
  | nil => intro _; rfl
  | cons e L ih =>
    intro hpw
    obtain ⟨he, hL⟩ := List.pairwise_cons.mp hpw
    rw [adjustModificationIndices_cons, ih hL]
    by_cases h1 : e.1 < 2
    · have hnot : ¬ (2 + remove ≤ e.1) := by omega
      simp [List.filter_cons, h1, hnot]
    · by_cases h2 : e.1 > 2 + remove - 1
      · have hge : 2 + remove ≤ e.1 := by omega
        have hkept : L.filter (fun e => decide (e.1 < 2)) = [] := by
          apply List.filter_eq_nil_iff.mpr
          intro x hx
          have := he x hx
          simp only [decide_eq_true_eq]
          omega
        simp [List.filter_cons, h1, h2, hge, hkept]
        rw [if_pos (by omega : 1 + remove < e.1)]
        rfl
      · have hnot : ¬ (2 + remove ≤ e.1) := by omega
        have hmid : ¬ (e.1 > 2 + remove - 1) := h2
        simp [List.filter_cons, h1, hmid, hnot]
        omega

/-- **C3** (confirmed).  Index-shift correctness: for every edit log entering
the truncation index rewrite after evicting `[2, 2 + remove)` (a JavaScript
object, so its keys are iterated in strictly ascending order — the `AscKeys`
hypothesis), the rewritten log is exactly: the entries with key `< 2`
unchanged, followed by the entries with key `≥ 2 + remove` re-keyed to
`key − remove` with their `editType`, blocks and edits untouched; entries
with key inside the evicted range contribute nothing. -/
theorem adjustModificationIndices_spec (remove : Nat) (L : EditLog)
    (hasc : AscKeys L) :
    adjustModificationIndices remove L =
      L.filter (fun e => decide (e.1 < 2)) ++
        (L.filter (fun e => decide (2 + remove ≤ e.1))).map
          (fun e => (e.1 - remove, e.2)) := by
  apply adjustModificationIndices_spec_aux
  exact (List.pairwise_map).mp (List.chain'_iff_pairwise.mp hasc)

/-- Witness for C3 on a concrete ascending log. -/
theorem adjustModificationIndices_spec_witness :
    AscKeys wLogC3 ∧
    adjustModificationIndices 2 wLogC3 =
      wLogC3.filter (fun e => decide (e.1 < 2)) ++
        (wLogC3.filter (fun e => decide (2 + 2 ≤ e.1))).map
          (fun e => (e.1 - 2, e.2)) :=
  ⟨by simp [AscKeys, wLogC3], adjustModificationIndices_spec 2 wLogC3 (by simp [AscKeys, wLogC3])⟩

/-! ### C8: budget underflow no-op -/

/-- **C8** (confirmed).  Budget underflow no-op: when the computed effective
budget (`maxAllowedSize − reservedResponseTokens − tokenBuffer`) is ≤ 0,
`processHistoryForApi` returns the raw history itself, the unchanged live
edit log, the token estimate of the raw history, `wasTruncated = false`, and
does not invoke the persistence store. -/
theorem processHistoryForApi_budget_underflow (tokenizer : String → Nat)
    (cfg : CMConfig) (liveLog : EditLog) (raw : List Message) (P : Rat)
    (now : Nat)
    (h : (getContextWindowInfo cfg.currentModelInfo).maxAllowedSize -
        cfg.reservedResponseTokens - cfg.tokenBuffer ≤ 0) :
    processHistoryForApi tokenizer cfg liveLog raw P now =
      ⟨raw, liveLog, calculateTokens tokenizer raw, false, liveLog, false⟩ := by
  simp only [processHistoryForApi, if_pos h]

/-- Witness for C8: a 1 000-token window with the default reserve and buffer
underflows the budget, so the call is a no-op. -/
theorem processHistoryForApi_budget_underflow_witness :
    (getContextWindowInfo (some ⟨some 1000⟩)).maxAllowedSize - 1000 - 500 ≤ 0 ∧
    processHistoryForApi (fun s => s.length) ⟨1/2, 1000, 500, some ⟨some 1000⟩⟩
        [] cexHistory3 7 0 =
      ⟨cexHistory3, [], calculateTokens (fun s => s.length) cexHistory3, false,
        [], false⟩ := by
  have hb : (getContextWindowInfo (some ⟨some 1000⟩)).maxAllowedSize - 1000 - 500 ≤ 0 := by
    norm_num [getContextWindowInfo]
  exact ⟨hb,
    processHistoryForApi_budget_underflow (fun s => s.length)
      ⟨1/2, 1000, 500, some ⟨some 1000⟩⟩ [] cexHistory3 7 0 hb⟩

/-! ### C7: rollback -/

theorem foldl_cond_eq_filterMap {α β : Type} (c : β → Prop) [DecidablePred c]
    (f : β → α) (L : List β) :
    L.foldl (fun a e => if c e then a ++ [f e] else a) [] =
      L.filterMap (fun e => if c e then some (f e) else none) := by
  have hstep : (fun (a : List α) e => if c e then a ++ [f e] else a) =
      (fun a e => a ++ (if c e then [f e] else [])) := by
    funext a e
    by_cases h : c e <;> simp [h]
  rw [hstep]
  induction L with
  | nil => rfl
  | cons e L ih =>
    rw [List.foldl_cons, foldl_append_form, ih, List.filterMap_cons]
    by_cases h : c e <;> simp [h]

/-- The inner per-entry rewrite performed by the rollback loop. -/
theorem rollback_fst_eq (L : EditLog) (t : Nat) :
    (truncateHistoryUpdatesAtTimestamp L t).1 =
      L.filterMap (fun e =>
        if (e.2.blocks.filterMap (fun bu =>
              if (bu.2.filter (fun u => u.ts ≤ t)).length > 0
              then some (bu.1, bu.2.filter (fun u => u.ts ≤ t)) else none)) ≠ []
        then some (e.1,
          ⟨e.2.editType,
           e.2.blocks.filterMap (fun bu =>
             if (bu.2.filter (fun u => u.ts ≤ t)).length > 0
             then some (bu.1, bu.2.filter (fun u => u.ts ≤ t)) else none)⟩)
        else none) := by
  show (L.foldl _ []) = _
  have hinner : ∀ bm : BlockMap,
      bm.foldl (fun bacc bu =>
        if (bu.2.filter (fun u => u.ts ≤ t)).length > 0
        then bacc ++ [(bu.1, bu.2.filter (fun u => u.ts ≤ t))] else bacc) [] =
      bm.filterMap (fun bu =>
        if (bu.2.filter (fun u => u.ts ≤ t)).length > 0
        then some (bu.1, bu.2.filter (fun u => u.ts ≤ t)) else none) :=
    fun bm => foldl_cond_eq_filterMap _ _ bm
  calc (truncateHistoryUpdatesAtTimestamp L t).1
      = L.foldl (fun acc e =>
          if (e.2.blocks.filterMap (fun bu =>
                if (bu.2.filter (fun u => u.ts ≤ t)).length > 0
                then some (bu.1, bu.2.filter (fun u => u.ts ≤ t)) else none)) ≠ []
          then acc ++ [(e.1,
            ⟨e.2.editType,
             e.2.blocks.filterMap (fun bu =>
               if (bu.2.filter (fun u => u.ts ≤ t)).length > 0
               then some (bu.1, bu.2.filter (fun u => u.ts ≤ t)) else none)⟩)]
          else acc) [] := by
        unfold truncateHistoryUpdatesAtTimestamp
        simp only
        congr 1
        funext acc e
        rw [hinner e.2.blocks]
    _ = _ := foldl_cond_eq_filterMap _ _ L

theorem find?_filterMap_keyed {β γ : Type} (g : Nat × β → Option (Nat × γ))
    (hg : ∀ e x, g e = some x → x.1 = e.1) (i : Nat) :
    ∀ L : List (Nat × β), (L.map Prod.fst).Nodup →
      (L.filterMap g).find? (fun x => x.1 == i) =
        (L.find? (fun e => e.1 == i)).bind g := by
  intro L
  induction L with
  | nil => intro _; rfl
  | cons e L ih =>
    intro hnd
    have hnd' : (e.1 ∉ L.map Prod.fst) ∧ (L.map Prod.fst).Nodup := by
      rw [List.map_cons] at hnd
      exact List.nodup_cons.mp hnd
    cases hge : g e with
    | some x =>
      have hfm : (e :: L).filterMap g = x :: L.filterMap g := by
        rw [List.filterMap_cons, hge]
      rw [hfm]
      have hx1 : x.1 = e.1 := hg e x hge
      by_cases hei : e.1 = i
      · have hxt : (x.1 == i) = true := by simp [hx1, hei]
        have het : (e.1 == i) = true := by simp [hei]
        rw [@List.find?_cons_of_pos _ (fun x => x.1 == i) x (L.filterMap g) hxt,
          @List.find?_cons_of_pos _ (fun e => e.1 == i) e L het]
        rw [Option.some_bind, hge]
      · have hxf : ¬ (x.1 == i) = true := by simp [hx1, hei]
        have hef : ¬ (e.1 == i) = true := by simp [hei]
        rw [@List.find?_cons_of_neg _ (fun x => x.1 == i) x (L.filterMap g) hxf,
          @List.find?_cons_of_neg _ (fun e => e.1 == i) e L hef]
        exact ih hnd'.2
    | none =>
      have hfm : (e :: L).filterMap g = L.filterMap g := by
        rw [List.filterMap_cons, hge]
      rw [hfm]
      by_cases hei : e.1 = i
      · have het : (e.1 == i) = true := by simp [hei]
        rw [@List.find?_cons_of_pos _ (fun e => e.1 == i) e L het]
        have hnone : (L.filterMap g).find? (fun x => x.1 == i) = none := by
          apply List.find?_eq_none.mpr
          intro x hx
          obtain ⟨a, haL, hga⟩ := List.mem_filterMap.mp hx
          have hxa : x.1 = a.1 := hg a x hga
          have hamem : a.1 ∈ L.map Prod.fst := List.mem_map_of_mem Prod.fst haL
          have hne : a.1 ≠ e.1 := fun hc => hnd'.1 (hc ▸ hamem)
          simp [hxa, hei ▸ hne]
        rw [hnone, Option.some_bind, hge]
      · have hef : ¬ (e.1 == i) = true := by simp [hei]
        rw [@List.find?_cons_of_neg _ (fun e => e.1 == i) e L hef]
        exact ih hnd'.2

theorem nodup_keys_of_asc {β : Type} {l : List (Nat × β)} (h : AscKeys l) :
    (l.map Prod.fst).Nodup :=
  (List.chain'_iff_pairwise.mp h).imp Nat.ne_of_lt

theorem lookupBM_rollback (bm : BlockMap) (t b : Nat)
    (hnd : (bm.map Prod.fst).Nodup) :
    lookupBM (bm.filterMap (fun bu =>
        if (bu.2.filter (fun u => u.ts ≤ t)).length > 0
        then some (bu.1, bu.2.filter (fun u => u.ts ≤ t)) else none)) b =
      (lookupBM bm b).filter (fun u => u.ts ≤ t) := by
  unfold lookupBM
  rw [find?_filterMap_keyed _ ?hg b bm hnd]
  case hg =>
    intro bu x hx
    by_cases hb : (bu.2.filter (fun u => u.ts ≤ t)).length > 0
    · rw [if_pos hb] at hx
      injection hx with hx
      rw [← hx]
    · rw [if_neg hb] at hx
      cases hx
  cases hbm : bm.find? (fun bu => bu.1 == b) with
  | none => rfl
  | some bu =>
    rw [Option.some_bind]
    by_cases hb : (bu.2.filter (fun u => u.ts ≤ t)).length > 0
    · rw [if_pos hb]
      rfl
    · rw [if_neg hb]
      have hnil : bu.2.filter (fun u => u.ts ≤ t) = [] := by
        cases hfe : bu.2.filter (fun u => u.ts ≤ t) with
        | nil => rfl
        | cons a l => rw [hfe] at hb; simp at hb
      show ([] : List ContextUpdate) = _
      rw [show (Option.map (fun e => e.2) (some bu)).getD [] = bu.2 from rfl, hnil]

theorem lookupBM_filter_nil (bm : BlockMap) (t b : Nat)
    (hall : ∀ a ∈ bm,
      (if (a.2.filter (fun u => u.ts ≤ t)).length > 0
       then some (a.1, a.2.filter (fun u => u.ts ≤ t)) else none) = none) :
    (lookupBM bm b).filter (fun u => u.ts ≤ t) = [] := by
  unfold lookupBM
  cases hbm : bm.find? (fun bu => bu.1 == b) with
  | none => rfl
  | some bu =>
    have hbu := hall bu (List.mem_of_find?_eq_some hbm)
    by_cases hb : (bu.2.filter (fun u => u.ts ≤ t)).length > 0
    · rw [if_pos hb] at hbu
      cases hbu
    · have hnil : bu.2.filter (fun u => u.ts ≤ t) = [] := by
        cases hfe : bu.2.filter (fun u => u.ts ≤ t) with
        | nil => rfl
        | cons a l => rw [hfe] at hb; simp at hb
      show bu.2.filter (fun u => u.ts ≤ t) = []
      exact hnil

/-- **C7** (confirmed).  Rollback: `truncateHistoryUpdatesAtTimestamp(t)` on a
well-formed live log removes exactly the edits with timestamp strictly greater
than `t`, preserving the append order of the remaining edits (pointwise, the
edit list of every `(message, block)` becomes its `ts ≤ t` filter); blocks
whose edit list becomes empty and message entries whose block map becomes
empty are removed; and the state is swapped and persisted iff the resulting
log differs from the starting log. -/
theorem truncateHistoryUpdatesAtTimestamp_spec (L : EditLog) (t : Nat)
    (hwf : WfLog L) :
    (∀ i b, lookupBlock (truncateHistoryUpdatesAtTimestamp L t).1 i b =
        (lookupBlock L i b).filter (fun u => u.ts ≤ t)) ∧
    (∀ e ∈ (truncateHistoryUpdatesAtTimestamp L t).1,
        e.2.blocks ≠ [] ∧ ∀ bu ∈ e.2.blocks, bu.2 ≠ []) ∧
    ((truncateHistoryUpdatesAtTimestamp L t).2 = true ↔
        (truncateHistoryUpdatesAtTimestamp L t).1 ≠ L) := by
  refine ⟨?_, ?_, ?_⟩
  · intro i b
    rw [rollback_fst_eq]
    unfold lookupBlock lookupEntry
    rw [find?_filterMap_keyed _ ?hg i L (nodup_keys_of_asc hwf.1)]
    case hg =>
      intro e x hx
      by_cases hc : (e.2.blocks.filterMap (fun bu =>
          if (bu.2.filter (fun u => u.ts ≤ t)).length > 0
          then some (bu.1, bu.2.filter (fun u => u.ts ≤ t)) else none)) ≠ []
      · rw [if_pos hc] at hx
        injection hx with hx
        rw [← hx]
      · rw [if_neg hc] at hx
        cases hx
    cases hL : L.find? (fun e => e.1 == i) with
    | none => rfl
    | some e =>
      have heL : e ∈ L := List.mem_of_find?_eq_some hL
      have hbmnd : (e.2.blocks.map Prod.fst).Nodup :=
        nodup_keys_of_asc (hwf.2 e heL)
      rw [Option.some_bind]
      by_cases hc : (e.2.blocks.filterMap (fun bu =>
          if (bu.2.filter (fun u => u.ts ≤ t)).length > 0
          then some (bu.1, bu.2.filter (fun u => u.ts ≤ t)) else none)) ≠ []
      · rw [if_pos hc]
        exact lookupBM_rollback e.2.blocks t b hbmnd
      · rw [if_neg hc]
        push_neg at hc
        have hall := List.filterMap_eq_nil_iff.mp hc
        exact (lookupBM_filter_nil e.2.blocks t b hall).symm
  · intro e he
    rw [rollback_fst_eq] at he
    obtain ⟨a, haL, hga⟩ := List.mem_filterMap.mp he
    by_cases hc : (a.2.blocks.filterMap (fun bu =>
        if (bu.2.filter (fun u => u.ts ≤ t)).length > 0
        then some (bu.1, bu.2.filter (fun u => u.ts ≤ t)) else none)) ≠ []
    · rw [if_pos hc] at hga
      injection hga with hga
      constructor
      · rw [← hga]
        exact hc
      · intro bu hbu
        rw [← hga] at hbu
        simp only at hbu
        obtain ⟨bu0, _, hbu0⟩ := List.mem_filterMap.mp hbu
        by_cases hb : (bu0.2.filter (fun u => u.ts ≤ t)).length > 0
        · rw [if_pos hb] at hbu0
          injection hbu0 with hbu0
          rw [← hbu0]
          simp only
          intro hnil
          rw [hnil] at hb
          simp at hb
        · rw [if_neg hb] at hbu0
          cases hbu0
    · rw [if_neg hc] at hga
      cases hga
  · exact decide_eq_true_iff

/-- Witness for C7: the spec's rollback scenario — edits at `(0,0)@1`,
`(0,0)@3` and `(1,0)@2`, rolled back at `t = 2`. -/
theorem truncateHistoryUpdatesAtTimestamp_spec_witness :
    WfLog wLogC7 ∧
    lookupBlock (truncateHistoryUpdatesAtTimestamp wLogC7 2).1 0 0 =
      (lookupBlock wLogC7 0 0).filter (fun u => u.ts ≤ 2) ∧
    ((truncateHistoryUpdatesAtTimestamp wLogC7 2).2 = true ↔
      (truncateHistoryUpdatesAtTimestamp wLogC7 2).1 ≠ wLogC7) := by
  have hwf : WfLog wLogC7 := by
    constructor
    · simp [AscKeys, wLogC7]
    · intro e he
      simp only [wLogC7, List.mem_cons, List.mem_singleton] at he
      rcases he with rfl | rfl | h
      · simp [AscKeys]
      · simp [AscKeys]
      · cases h
  exact ⟨hwf, (truncateHistoryUpdatesAtTimestamp_spec wLogC7 2 hwf).1 0 0,
    (truncateHistoryUpdatesAtTimestamp_spec wLogC7 2 hwf).2.2⟩

/-! ### C9: notice targets -/

theorem processHistoryForApi_of_pos (tokenizer : String → Nat) (cfg : CMConfig)
    (liveLog : EditLog) (raw : List Message) (P : Rat) (now : Nat)
    (hb : ¬ ((getContextWindowInfo cfg.currentModelInfo).maxAllowedSize -
        cfg.reservedResponseTokens - cfg.tokenBuffer ≤ 0)) :
    processHistoryForApi tokenizer cfg liveLog raw P now =
      ⟨(applyTruncation tokenizer
          (applyModificationsToHistory (applyContextHistoryUpdates raw liveLog)
            (applyOptimizations now raw liveLog))
          (applyOptimizations now raw liveLog)
          ((getContextWindowInfo cfg.currentModelInfo).maxAllowedSize -
            cfg.reservedResponseTokens - cfg.tokenBuffer)
          P cfg.truncationPercentage now).truncatedHistory,
       (applyTruncation tokenizer
          (applyModificationsToHistory (applyContextHistoryUpdates raw liveLog)
            (applyOptimizations now raw liveLog))
          (applyOptimizations now raw liveLog)
          ((getContextWindowInfo cfg.currentModelInfo).maxAllowedSize -
            cfg.reservedResponseTokens - cfg.tokenBuffer)
          P cfg.truncationPercentage now).updatedModifications,
       calculateTokens tokenizer
         (applyTruncation tokenizer
            (applyModificationsToHistory (applyContextHistoryUpdates raw liveLog)
              (applyOptimizations now raw liveLog))
            (applyOptimizations now raw liveLog)
            ((getContextWindowInfo cfg.currentModelInfo).maxAllowedSize -
              cfg.reservedResponseTokens - cfg.tokenBuffer)
            P cfg.truncationPercentage now).truncatedHistory,
       (applyTruncation tokenizer
          (applyModificationsToHistory (applyContextHistoryUpdates raw liveLog)
            (applyOptimizations now raw liveLog))
          (applyOptimizations now raw liveLog)
          ((getContextWindowInfo cfg.currentModelInfo).maxAllowedSize -
            cfg.reservedResponseTokens - cfg.tokenBuffer)
          P cfg.truncationPercentage now).wasTruncated,
       (applyTruncation tokenizer
          (applyModificationsToHistory (applyContextHistoryUpdates raw liveLog)
            (applyOptimizations now raw liveLog))
          (applyOptimizations now raw liveLog)
          ((getContextWindowInfo cfg.currentModelInfo).maxAllowedSize -
            cfg.reservedResponseTokens - cfg.tokenBuffer)
          P cfg.truncationPercentage now).updatedModifications,
       decide ((applyTruncation tokenizer
          (applyModificationsToHistory (applyContextHistoryUpdates raw liveLog)
            (applyOptimizations now raw liveLog))
          (applyOptimizations now raw liveLog)
          ((getContextWindowInfo cfg.currentModelInfo).maxAllowedSize -
            cfg.reservedResponseTokens - cfg.tokenBuffer)
          P cfg.truncationPercentage now).updatedModifications ≠ liveLog)⟩ := by
  simp only [processHistoryForApi, if_neg hb]

theorem budget_cexCfg :
    (getContextWindowInfo cexCfg.currentModelInfo).maxAllowedSize -
      cexCfg.reservedResponseTokens - cexCfg.tokenBuffer = 158500 := by
  norm_num [cexCfg, getContextWindowInfo]

theorem removalCount_4_half : removalCount 4 (1/2) = 2 := by
  unfold removalCount
  have hc : ⌈(((4 : Int) - 2 : Int) : Rat) * (1/2)⌉ = (1 : Int) := by
    have : (((4 : Int) - 2 : Int) : Rat) * (1/2) = 1 := by norm_num
    rw [this]
    exact Int.ceil_one
  norm_num at hc ⊢

theorem removalCount_6_half : removalCount 6 (1/2) = 2 := by
  unfold removalCount
  have hc : ⌈(((6 : Int) - 2 : Int) : Rat) * (1/2)⌉ = (2 : Int) := by
    have : (((6 : Int) - 2 : Int) : Rat) * (1/2) = 2 := by norm_num
    rw [this]
    exact_mod_cast Int.ceil_intCast 2
  norm_num at hc ⊢

theorem procC9_eval :
    processHistoryForApi (fun s => s.length) cexCfg [] cexHistoryC9 1000000 5 =
      ⟨[mkTextMsg Role.user "q",
        ⟨Role.assistant, MsgContent.blocks [Block.tool_use "t" none]⟩],
       [(1, ⟨Role.assistant, [(0, [noticeUpdate 5])]⟩)],
       22, true,
       [(1, ⟨Role.assistant, [(0, [noticeUpdate 5])]⟩)],
       true⟩ := by
  rw [processHistoryForApi_of_pos _ _ _ _ _ _ (by rw [budget_cexCfg]; norm_num)]
  rw [budget_cexCfg]
  rw [show applyOptimizations 5 cexHistoryC9 [] = [] from by decide]
  rw [show applyModificationsToHistory (applyContextHistoryUpdates cexHistoryC9 []) [] =
      cexHistoryC9 from by decide]
  rw [show cexCfg.truncationPercentage = (1/2 : Rat) from rfl]
  rw [applyTruncation_of_lt _ _ _ _ _ _ _ (by norm_num : (158500 : Rat) < 1000000)]
  rw [if_pos (by decide : cexHistoryC9.length > 2)]
  rw [show cexHistoryC9.length = 4 from rfl, removalCount_4_half]
  decide

/-- **C9** counterexample: starting from the empty log, one
`processHistoryForApi` call on a history whose assistant message at index 1
has a `tool_use` first block (budget positive, previous count above the
limit) leaves the live log with an `add_truncation_notice` edit keyed to
`(1, 0)` whose target block — both in the history at the time the edit was
added and in the prepared history — is a `tool_use` block, not a text
block. -/
theorem notice_targets_text_cex :
    (∃ u ∈ lookupBlock
        (processHistoryForApi (fun s => s.length) cexCfg [] cexHistoryC9 1000000 5).newLiveLog
        1 0, u.updateType = UpdateType.add_truncation_notice) ∧
    blockAt cexHistoryC9 1 0 = some (Block.tool_use "t" none) ∧
    blockAt
        (processHistoryForApi (fun s => s.length) cexCfg [] cexHistoryC9 1000000 5).processedHistory
        1 0 = some (Block.tool_use "t" none) := by
  rw [procC9_eval]
  decide

/-- **C9** (corrected).  Amended claim, as proved: every
`add_truncation_notice` edit added by the truncation-notice step is keyed to
`(1, 0)` (all other positions are untouched, and at most one notice is
appended per call); when no entry for message 1 exists and the message at
index 1 is absent or not an assistant message, the log is returned unchanged
(so no notice is added); and an entry created by this step has
`editType = assistant` and witnesses an assistant message at index 1.  The
step checks only the message *role*, never the target block's type, so the
notice's target is a text block iff message 1's first block happens to be a
text block (the counterexample shows a `tool_use` target). -/
theorem addTruncationNoticeEdit_spec (H : List Message) (L : EditLog) (now : Nat) :
    (∀ i b, ¬ (i = 1 ∧ b = 0) →
        lookupBlock (addTruncationNoticeEdit H L now) i b = lookupBlock L i b) ∧
    (∃ s, lookupBlock (addTruncationNoticeEdit H L now) 1 0 =
        lookupBlock L 1 0 ++ s ∧ s.length ≤ 1 ∧ ∀ u ∈ s, u = noticeUpdate now) ∧
    (lookupEntry L 1 = none →
      (∀ msg, H[1]? = some msg → msg.role ≠ Role.assistant) →
      addTruncationNoticeEdit H L now = L) ∧
    (∀ mu, lookupEntry L 1 = none →
      lookupEntry (addTruncationNoticeEdit H L now) 1 = some mu →
      mu.editType = Role.assistant ∧
        ∃ msg, H[1]? = some msg ∧ msg.role = Role.assistant) := by
  cases hL : lookupEntry L 1 with
  | some mu0 =>
    have hlog1 : addTruncationNoticeEdit H L now =
        (match (lookupBM mu0.blocks 0).getLast? with
         | some latestUpdate =>
           if latestUpdate.updateType = UpdateType.add_truncation_notice then L
           else
             setEntry L 1
               ⟨mu0.editType, setBM mu0.blocks 0 (lookupBM mu0.blocks 0 ++ [noticeUpdate now])⟩
         | none =>
           setEntry L 1
             ⟨mu0.editType, setBM mu0.blocks 0 (lookupBM mu0.blocks 0 ++ [noticeUpdate now])⟩) := by
      simp only [addTruncationNoticeEdit, hL]
    cases hlast : (lookupBM mu0.blocks 0).getLast? with
    | some lu =>
      by_cases hn : lu.updateType = UpdateType.add_truncation_notice
      · have hR : addTruncationNoticeEdit H L now = L := by
          rw [hlog1, hlast]
          simp [hn]
        refine ⟨fun i b _ => by rw [hR], ⟨[], by simp [hR], by simp, by simp⟩, fun _ _ => hR, ?_⟩
        intro mu hnone _
        simp at hnone
      · have hR : addTruncationNoticeEdit H L now =
            setEntry L 1
              ⟨mu0.editType, setBM mu0.blocks 0 (lookupBM mu0.blocks 0 ++ [noticeUpdate now])⟩ := by
          rw [hlog1, hlast]
          simp [hn]
        refine ⟨?_, ?_, ?_, ?_⟩
        · intro i b hib
          rw [hR, lookupBlock_setEntry]
          by_cases hi : i = 1
          · subst hi
            have hb : ¬ b = 0 := fun hb => hib ⟨rfl, hb⟩
            rw [if_pos rfl]
            simp only
            rw [lookupBM_setBM]
            rw [if_neg hb]
            unfold lookupBlock
            rw [hL]
          · rw [if_neg hi]
        · refine ⟨[noticeUpdate now], ?_, by simp, by simp⟩
          rw [hR, lookupBlock_setEntry, if_pos rfl]
          simp only
          rw [lookupBM_setBM, if_pos rfl]
          unfold lookupBlock
          rw [hL]
        · intro hnone
          intro _
          simp at hnone
        · intro mu hnone
          intro _
          simp at hnone
    | none =>
      have hR : addTruncationNoticeEdit H L now =
          setEntry L 1
            ⟨mu0.editType, setBM mu0.blocks 0 (lookupBM mu0.blocks 0 ++ [noticeUpdate now])⟩ := by
        rw [hlog1, hlast]
      refine ⟨?_, ?_, ?_, ?_⟩
      · intro i b hib
        rw [hR, lookupBlock_setEntry]
        by_cases hi : i = 1
        · subst hi
          have hb : ¬ b = 0 := fun hb => hib ⟨rfl, hb⟩
          rw [if_pos rfl]
          simp only
          rw [lookupBM_setBM, if_neg hb]
          unfold lookupBlock
          rw [hL]
        · rw [if_neg hi]
      · refine ⟨[noticeUpdate now], ?_, by simp, by simp⟩
        rw [hR, lookupBlock_setEntry, if_pos rfl]
        simp only
        rw [lookupBM_setBM, if_pos rfl]
        unfold lookupBlock
        rw [hL]
      · intro hnone
        intro _
        simp at hnone
      · intro mu hnone
        intro _
        simp at hnone
  | none =>
    cases hH : H[1]? with
    | none =>
      have hR : addTruncationNoticeEdit H L now = L := by
        simp only [addTruncationNoticeEdit, hL, hH]
      refine ⟨fun i b _ => by rw [hR], ⟨[], by simp [hR], by simp, by simp⟩,
        fun _ _ => hR, ?_⟩
      intro mu _ hmu
      rw [hR, hL] at hmu
      cases hmu
    | some msg =>
      by_cases hrole : msg.role = Role.assistant
      · have hlog1 : addTruncationNoticeEdit H L now =
            (match lookupEntry (setEntry L 1 ⟨Role.assistant, []⟩) 1 with
             | none => setEntry L 1 ⟨Role.assistant, []⟩
             | some mu =>
               match (lookupBM mu.blocks 0).getLast? with
               | some latestUpdate =>
                 if latestUpdate.updateType = UpdateType.add_truncation_notice then
                   setEntry L 1 ⟨Role.assistant, []⟩
                 else
                   setEntry (setEntry L 1 ⟨Role.assistant, []⟩) 1
                     ⟨mu.editType, setBM mu.blocks 0 (lookupBM mu.blocks 0 ++ [noticeUpdate now])⟩
               | none =>
                 setEntry (setEntry L 1 ⟨Role.assistant, []⟩) 1
                   ⟨mu.editType, setBM mu.blocks 0 (lookupBM mu.blocks 0 ++ [noticeUpdate now])⟩) := by
          simp only [addTruncationNoticeEdit, hL, hH, hrole, if_pos]
        have hset : lookupEntry (setEntry L 1 ⟨Role.assistant, []⟩) 1 =
            some ⟨Role.assistant, []⟩ := by
          rw [lookupEntry_setEntry, if_pos rfl]
        have hR : addTruncationNoticeEdit H L now =
            setEntry (setEntry L 1 ⟨Role.assistant, []⟩) 1
              ⟨Role.assistant, setBM ([] : BlockMap) 0 ([] ++ [noticeUpdate now])⟩ := by
          rw [hlog1, hset]
          rfl
        refine ⟨?_, ?_, ?_, ?_⟩
        · intro i b hib
          rw [hR, lookupBlock_setEntry]
          by_cases hi : i = 1
          · subst hi
            have hb : ¬ b = 0 := fun hb => hib ⟨rfl, hb⟩
            rw [if_pos rfl]
            simp only
            rw [lookupBM_setBM, if_neg hb]
            unfold lookupBlock
            rw [hL]
            rfl
          · rw [if_neg hi, lookupBlock_setEntry, if_neg hi]
        · refine ⟨[noticeUpdate now], ?_, by simp, by simp⟩
          rw [hR, lookupBlock_setEntry, if_pos rfl]
          simp only
          rw [lookupBM_setBM, if_pos rfl]
          unfold lookupBlock
          rw [hL]
        · intro _ hforall
          exact absurd hrole (hforall msg rfl)
        · intro mu _ hmu
          rw [hR, lookupEntry_setEntry, if_pos rfl] at hmu
          injection hmu with hmu
          rw [← hmu]
          exact ⟨rfl, msg, rfl, hrole⟩
      · have hR : addTruncationNoticeEdit H L now = L := by
          simp only [addTruncationNoticeEdit, hL, hH]
          rw [if_neg hrole]
          simp only [hL]
        refine ⟨fun i b _ => by rw [hR], ⟨[], by simp [hR], by simp, by simp⟩,
          fun _ _ => hR, ?_⟩
        intro mu _ hmu
        rw [hR, hL] at hmu
        cases hmu

/-- Witness for the amended C9 on a concrete history and the empty log. -/
theorem addTruncationNoticeEdit_spec_witness :
    lookupBlock (addTruncationNoticeEdit cexHistory3 [] 9) 0 0 =
      lookupBlock ([] : EditLog) 0 0 ∧
    (∃ s, lookupBlock (addTruncationNoticeEdit cexHistory3 [] 9) 1 0 =
        lookupBlock ([] : EditLog) 1 0 ++ s ∧ s.length ≤ 1 ∧
        ∀ u ∈ s, u = noticeUpdate 9) :=
  ⟨(addTruncationNoticeEdit_spec cexHistory3 [] 9).1 0 0 (by decide),
   (addTruncationNoticeEdit_spec cexHistory3 [] 9).2.1⟩

/-! ### Elider: structural lemmas -/

theorem mkElisionUpdate_fields (now : Nat) (raw : List Message) (log : EditLog)
    (p : String) (o : FileReadOccurrence) :
    (mkElisionUpdate now raw log p o).ts = now ∧
    (mkElisionUpdate now raw log p o).updateType = UpdateType.replace_content ∧
    ∃ s, (mkElisionUpdate now raw log p o).content = some s := by
  unfold mkElisionUpdate
  cases o.fullMatch with
  | none => exact ⟨rfl, rfl, _, rfl⟩
  | some fm =>
    simp only
    split <;> (try split) <;> exact ⟨rfl, rfl, _, rfl⟩

theorem mkElisionUpdate_congr (now : Nat) (raw : List Message)
    (log1 log2 : EditLog) (p : String) (o : FileReadOccurrence)
    (h : lookupBlock log1 o.messageIndex o.blockIndex =
         lookupBlock log2 o.messageIndex o.blockIndex) :
    mkElisionUpdate now raw log1 p o = mkElisionUpdate now raw log2 p o := by
  unfold mkElisionUpdate
  rw [h]

theorem lookupBlock_elidePush_other (now : Nat) (raw : List Message)
    (log : EditLog) (p : String) (o : FileReadOccurrence) (i b : Nat)
    (h : ¬ (i = o.messageIndex ∧ b = o.blockIndex)) :
    lookupBlock (elidePush now raw log p o) i b = lookupBlock log i b := by
  unfold elidePush
  cases hE : lookupEntry log o.messageIndex with
  | some mu =>
    simp only [hE]
    rw [lookupBlock_setEntry]
    by_cases hi : i = o.messageIndex
    · subst hi
      have hb : ¬ b = o.blockIndex := fun hb => h ⟨rfl, hb⟩
      rw [if_pos rfl]
      simp only
      rw [lookupBM_setBM, if_neg hb]
      unfold lookupBlock
      rw [hE]
    · rw [if_neg hi]
  | none =>
    cases hR : raw[o.messageIndex]? with
    | none => simp only [hE, hR]
    | some msg =>
      simp only [hE, hR]
      rw [lookupEntry_setEntry, if_pos rfl]
      simp only
      rw [lookupBlock_setEntry]
      by_cases hi : i = o.messageIndex
      · subst hi
        have hb : ¬ b = o.blockIndex := fun hb => h ⟨rfl, hb⟩
        rw [if_pos rfl]
        simp only
        rw [lookupBM_setBM, if_neg hb]
        show lookupBM ([] : BlockMap) b = _
        unfold lookupBlock
        rw [hE]
        rfl
      · rw [if_neg hi, lookupBlock_setEntry, if_neg hi]

theorem lookupBlock_elidePush_self (now : Nat) (raw : List Message)
    (log : EditLog) (p : String) (o : FileReadOccurrence)
    (hlt : o.messageIndex < raw.length) :
    lookupBlock (elidePush now raw log p o) o.messageIndex o.blockIndex =
      lookupBlock log o.messageIndex o.blockIndex
        ++ [mkElisionUpdate now raw log p o] := by
  unfold elidePush
  cases hE : lookupEntry log o.messageIndex with
  | some mu =>
    simp only [hE]
    rw [lookupBlock_setEntry, if_pos rfl]
    simp only
    rw [lookupBM_setBM, if_pos rfl]
    unfold lookupBlock
    rw [hE]
  | none =>
    have hR : raw[o.messageIndex]? = some raw[o.messageIndex] :=
      List.getElem?_eq_getElem hlt
    simp only [hE, hR]
    rw [lookupEntry_setEntry, if_pos rfl]
    simp only
    rw [lookupBlock_setEntry, if_pos rfl]
    simp only
    rw [lookupBM_setBM, if_pos rfl]
    unfold lookupBlock
    rw [hE]
    rfl

theorem foldElide_append (now : Nat) (raw : List Message)
    (ps qs : List (String × FileReadOccurrence)) (log : EditLog) :
    foldElide now raw (ps ++ qs) log = foldElide now raw qs (foldElide now raw ps log) := by
  unfold foldElide
  exact List.foldl_append _ _ _ _

theorem processedOccurrences_cons (pr : String × List FileReadOccurrence)
    (fr : List (String × List FileReadOccurrence)) :
    processedOccurrences (pr :: fr) =
      (if pr.2.length ≤ 1 then [] else pr.2.dropLast.map (fun o => (pr.1, o)))
        ++ processedOccurrences fr := by
  have hstep : (fun (acc : List (String × FileReadOccurrence))
      (pr : String × List FileReadOccurrence) =>
      if pr.2.length ≤ 1 then acc
      else acc ++ pr.2.dropLast.map (fun o => (pr.1, o))) =
      (fun (acc : List (String × FileReadOccurrence))
        (pr : String × List FileReadOccurrence) => acc ++
        (if pr.2.length ≤ 1 then [] else pr.2.dropLast.map (fun o => (pr.1, o)))) := by
    funext acc pr
    by_cases h : pr.2.length ≤ 1 <;> simp [h]
  unfold processedOccurrences
  rw [hstep]
  rw [List.foldl_cons]
  rw [foldl_append_form _ fr]
  simp

theorem applyOptimizations_eq_foldElide (now : Nat) (raw : List Message)
    (L : EditLog) :
    applyOptimizations now raw L =
      foldElide now raw (processedOccurrences (findDuplicateFileReads raw)) L := by
  unfold applyOptimizations
  generalize findDuplicateFileReads raw = fr
  induction fr generalizing L with
  | nil => rfl
  | cons pr fr ih =>
    rw [List.foldl_cons, processedOccurrences_cons, foldElide_append]
    rw [ih]
    congr 1
    by_cases h : pr.2.length ≤ 1
    · rw [if_pos h, if_pos h]
      rfl
    · rw [if_neg h, if_neg h]
      unfold foldElide
      rw [List.foldl_map]

theorem foldElide_suffix (now : Nat) (raw : List Message) :
    ∀ (ps : List (String × FileReadOccurrence)) (log : EditLog),
      (∀ q ∈ ps, q.2.messageIndex < raw.length) →
      ∀ i b, ∃ s, lookupBlock (foldElide now raw ps log) i b =
          lookupBlock log i b ++ s ∧
        s.length = (ps.filter
          (fun q => q.2.messageIndex == i && q.2.blockIndex == b)).length ∧
        ∀ u ∈ s, u.ts = now ∧ u.updateType = UpdateType.replace_content ∧
          ∃ str, u.content = some str := by
  intro ps
  induction ps with
  | nil =>
    intro log _ i b
    exact ⟨[], by simp [foldElide], by simp, by simp⟩
  | cons q ps ih =>
    intro log hlt i b
    have hstep : foldElide now raw (q :: ps) log =
        foldElide now raw ps (elidePush now raw log q.1 q.2) := rfl
    obtain ⟨s', hs', hlen', hall'⟩ :=
      ih (elidePush now raw log q.1 q.2)
        (fun q' hq' => hlt q' (List.mem_cons_of_mem q hq')) i b
    by_cases hpos : i = q.2.messageIndex ∧ b = q.2.blockIndex
    · obtain ⟨hi, hb⟩ := hpos
      subst hi
      subst hb
      have hself := lookupBlock_elidePush_self now raw log q.1 q.2
        (hlt q (List.mem_cons_self q ps))
      refine ⟨mkElisionUpdate now raw log q.1 q.2 :: s', ?_, ?_, ?_⟩
      · rw [hstep, hs', hself]
        simp
      · have hq : (q.2.messageIndex == q.2.messageIndex &&
            q.2.blockIndex == q.2.blockIndex) = true := by simp
        rw [List.filter_cons, if_pos hq]
        simp [hlen']
      · intro u hu
        rcases List.mem_cons.mp hu with rfl | hu'
        · obtain ⟨h1, h2, h3⟩ := mkElisionUpdate_fields now raw log q.1 q.2
          exact ⟨h1, h2, h3⟩
        · exact hall' u hu'
    · have hother := lookupBlock_elidePush_other now raw log q.1 q.2 i b hpos
      refine ⟨s', ?_, ?_, hall'⟩
      · rw [hstep, hs', hother]
      · have hq : ¬ (q.2.messageIndex == i && q.2.blockIndex == b) = true := by
          intro hc
          simp only [Bool.and_eq_true, beq_iff_eq] at hc
          exact hpos ⟨hc.1.symm, hc.2.symm⟩
        rw [List.filter_cons, if_neg hq]
        exact hlen'

/-! ### Scanner soundness -/

theorem matchMentionAt_spec (l : List Char) (p : String) (fm rest : List Char)
    (h : matchMentionAt l = some (p, fm, rest)) :
    l = fm ++ rest ∧ fm ≠ [] := by
  unfold matchMentionAt at h
  by_cases ht : l.take ("<file_content path=\"".toList).length = "<file_content path=\"".toList
  · rw [if_pos ht] at h
    have hl : l = "<file_content path=\"".toList
        ++ l.drop ("<file_content path=\"".toList).length := by
      conv_lhs => rw [← List.take_append_drop ("<file_content path=\"".toList).length l]
      rw [ht]
    lift_lets at h
    extract_lets r1 path r2 at h
    have hr1 : r1 = l.drop ("<file_content path=\"".toList).length := rfl
    have hpa : path = r1.takeWhile (fun c => decide (c ≠ '"')) := rfl
    have hr2 : r2 = r1.dropWhile (fun c => decide (c ≠ '"')) := rfl
    clear_value r1 path r2
    have hr12 : r1 = path ++ r2 := by
      rw [hpa, hr2]
      exact (List.takeWhile_append_dropWhile _ _).symm
    split at h
    next x0 r3 =>
      split at h
      next x1 content rest' hs =>
        have hr3 := splitAtSub_eq_some "</file_content>".toList r3 content rest' hs
        injection h with h
        obtain ⟨hp, hfr⟩ := Prod.mk.injEq _ _ _ _ ▸ h
        obtain ⟨hf, hr⟩ := Prod.mk.injEq _ _ _ _ ▸ hfr
        constructor
        · rw [hl, ← hr1, hr12, hr3, ← hf, ← hr]
          simp
        · rw [← hf]
          intro hc
          have hlen := congrArg List.length hc
          simp only [List.length_append, List.length_cons, List.length_nil] at hlen
          have h20 : ("<file_content path=\"".toList).length = 20 := by decide
          rw [h20] at hlen
          omega
      next => exact Option.noConfusion h
    next hne => exact Option.noConfusion h
  · rw [if_neg ht] at h
    cases h

theorem scanMentionsF_sound (fuel : Nat) :
    ∀ (l : List Char) (p : String) (fm : List Char),
      (p, fm) ∈ scanMentionsF fuel l →
      fm ≠ [] ∧ ∃ pre post, l = pre ++ fm ++ post := by
  induction fuel with
  | zero => intro l p fm h; cases h
  | succ fuel ih =>
    intro l p fm h
    cases l with
    | nil => cases h
    | cons c rest =>
      cases hm : matchMentionAt (c :: rest) with
      | some pr =>
        obtain ⟨p0, fm0, after⟩ := pr
        rw [show scanMentionsF (fuel + 1) (c :: rest)
            = (p0, fm0) :: scanMentionsF fuel after by
          show (match matchMentionAt (c :: rest) with
                | some (q, g, aft) => (q, g) :: scanMentionsF fuel aft
                | none => scanMentionsF fuel rest)
              = (p0, fm0) :: scanMentionsF fuel after
          rw [hm]] at h
        obtain ⟨hsplit, hne⟩ := matchMentionAt_spec (c :: rest) p0 fm0 after hm
        rcases List.mem_cons.mp h with heq | hmem
        · rw [Prod.ext_iff] at heq
          obtain ⟨hp, hf⟩ := heq
          simp only at hf
          subst hf
          exact ⟨hne, [], after, by simpa using hsplit⟩
        · obtain ⟨hne', pre, post, hpp⟩ := ih after p fm hmem
          exact ⟨hne', fm0 ++ pre, post, by rw [hsplit, hpp]; simp⟩
      | none =>
        rw [show scanMentionsF (fuel + 1) (c :: rest)
            = scanMentionsF fuel rest by
          show (match matchMentionAt (c :: rest) with
                | some (q, g, aft) => (q, g) :: scanMentionsF fuel aft
                | none => scanMentionsF fuel rest)
              = scanMentionsF fuel rest
          rw [hm]] at h
        obtain ⟨hne', pre, post, hpp⟩ := ih rest p fm h
        exact ⟨hne', c :: pre, post, by rw [hpp]; rfl⟩

/-- Soundness of the global mention scan: every reported full match is a
non-empty substring of the scanned text. -/
theorem scanMentions_sound (t : String) (p : String) (fm : List Char)
    (h : (p, fm) ∈ scanMentions t) :
    fm ≠ [] ∧ ∃ pre post, t.toList = pre ++ fm ++ post :=
  scanMentionsF_sound (t.toList.length + 1) t.toList p fm h

/-- Membership after `pushOcc`: an occurrence either was already filed under
the same key, or is exactly the pushed pair. -/
theorem pushOcc_mem (m : List (String × List FileReadOccurrence)) (p : String)
    (o : FileReadOccurrence) (q : String) (os : List FileReadOccurrence)
    (hm : (q, os) ∈ pushOcc m p o) (x : FileReadOccurrence) (hx : x ∈ os) :
    (∃ os', (q, os') ∈ m ∧ x ∈ os') ∨ (q = p ∧ x = o) := by
  induction m generalizing os with
  | nil =>
    simp [pushOcc] at hm
    obtain ⟨hq, hos⟩ := hm
    subst hq
    subst hos
    simp at hx
    exact Or.inr ⟨rfl, hx⟩
  | cons hd t ih =>
    obtain ⟨p', os'⟩ := hd
    by_cases hp : p' = p
    · rw [show pushOcc ((p', os') :: t) p o = (p', os' ++ [o]) :: t by
        simp [pushOcc, hp]] at hm
      rcases List.mem_cons.mp hm with heq | hmem
      · obtain ⟨hq, hos⟩ := Prod.mk.injEq _ _ _ _ ▸ heq
        subst hq
        subst hos
        rcases List.mem_append.mp hx with hx1 | hx2
        · exact Or.inl ⟨os', List.mem_cons_self _ _, hx1⟩
        · simp at hx2
          exact Or.inr ⟨hp, hx2⟩
      · exact Or.inl ⟨os, List.mem_cons_of_mem _ hmem, hx⟩
    · rw [show pushOcc ((p', os') :: t) p o = (p', os') :: pushOcc t p o by
        simp [pushOcc, hp]] at hm
      rcases List.mem_cons.mp hm with heq | hmem
      · obtain ⟨hq, hos⟩ := Prod.mk.injEq _ _ _ _ ▸ heq
        subst hq
        subst hos
        exact Or.inl ⟨os, List.mem_cons_self _ _, hx⟩
      · rcases ih os hmem hx with ⟨os'', hin, hx'⟩ | hnew
        · exact Or.inl ⟨os'', List.mem_cons_of_mem _ hin, hx'⟩
        · exact Or.inr hnew

/-- `pushOcc` preserves multimap validity when the pushed occurrence is
valid. -/
theorem MapValid_pushOcc (rawHistory : List Message)
    (m : List (String × List FileReadOccurrence)) (p : String)
    (o : FileReadOccurrence) (hm : MapValid rawHistory m)
    (ho : OccValid rawHistory p o) : MapValid rawHistory (pushOcc m p o) := by
  intro pr hpr x hx
  obtain ⟨q, os⟩ := pr
  rcases pushOcc_mem m p o q os hpr x hx with ⟨os', hin, hx'⟩ | ⟨hq, hxo⟩
  · exact hm (q, os') hin x hx'
  · subst hq
    subst hxo
    exact ho

/-- Every occurrence reported for one block of a user message is valid. -/
theorem blockOccurrences_valid (rawHistory : List Message) (i : Nat) (r : Role)
    (bs : List Block) (bi : Nat) (b : Block)
    (hmsg : rawHistory[i]? = some ⟨r, MsgContent.blocks bs⟩)
    (hb : bs[bi]? = some b) (e : String × FileReadOccurrence)
    (he : e ∈ blockOccurrences i bs bi b) : OccValid rawHistory e.1 e.2 := by
  obtain ⟨q, o⟩ := e
  have hlt : i < rawHistory.length := (List.getElem?_eq_some.mp hmsg).1
  have hblockAt : ∀ bj : Nat, blockAt rawHistory i bj = bs[bj]? := by
    intro bj
    simp [blockAt, hmsg]
  simp only [blockOccurrences, List.mem_append] at he
  rcases he with htool | hment
  · by_cases h0 : bi = 0
    · subst h0
      rw [if_pos rfl] at htool
      cases b with
      | text t =>
        cases hp : parseToolResultPath t with
        | some p =>
          cases h1 : bs[1]? with
          | some b1 =>
            cases b1 with
            | text t1 =>
              simp [hp, h1] at htool
              obtain ⟨hq, hoe⟩ := htool
              subst hq
              subst hoe
              exact ⟨rfl, hlt, t1, by rw [hblockAt, h1], trivial⟩
            | image => simp [hp, h1] at htool
            | tool_use n inp => simp [hp, h1] at htool
            | tool_result c => simp [hp, h1] at htool
          | none => simp [hp, h1] at htool
        | none => simp [hp] at htool
      | image => simp at htool
      | tool_use n inp => simp at htool
      | tool_result c => simp at htool
    · rw [if_neg h0] at htool
      simp at htool
  · cases b with
    | text t =>
      simp only [List.mem_map] at hment
      obtain ⟨pr, hprm, heq⟩ := hment
      obtain ⟨hq, hoe⟩ := Prod.mk.injEq _ _ _ _ ▸ heq
      subst hq
      subst hoe
      have hsound := scanMentions_sound t pr.1 pr.2 (by
        have : (pr.1, pr.2) = pr := rfl
        rw [this]
        exact hprm)
      exact ⟨rfl, hlt, t, by rw [hblockAt, hb], hsound.1, hsound.2⟩
    | image => simp at hment
    | tool_use n inp => simp at hment
    | tool_result c => simp at hment

/-- Folding valid elements through `pushOcc` preserves validity. -/
theorem foldl_pushOcc_valid (rawHistory : List Message)
    (elems : List (String × FileReadOccurrence))
    (hval : ∀ e ∈ elems, OccValid rawHistory e.1 e.2)
    (acc : List (String × List FileReadOccurrence))
    (hacc : MapValid rawHistory acc) :
    MapValid rawHistory
      (elems.foldl (fun a' e => pushOcc a' e.1 e.2) acc) := by
  induction elems generalizing acc with
  | nil => exact hacc
  | cons e t ih =>
    exact ih (fun x hx => hval x (List.mem_cons_of_mem _ hx)) _
      (MapValid_pushOcc _ _ _ _ hacc (hval e (List.mem_cons_self _ _)))

/-- The enumerated-block fold of `scanMessage` preserves validity. -/
theorem enum_foldl_valid (rawHistory : List Message) (i : Nat) (r : Role)
    (bs : List Block)
    (hmsg : rawHistory[i]? = some ⟨r, MsgContent.blocks bs⟩) :
    ∀ (l : List (Nat × Block)), (∀ pr ∈ l, bs[pr.1]? = some pr.2) →
      ∀ acc, MapValid rawHistory acc →
        MapValid rawHistory
          (l.foldl
            (fun a pr =>
              (blockOccurrences i bs pr.1 pr.2).foldl
                (fun a' e => pushOcc a' e.1 e.2) a)
            acc) := by
  intro l
  induction l with
  | nil =>
    intro _ acc hacc
    exact hacc
  | cons pr t ih =>
    intro hl acc hacc
    refine ih (fun x hx => hl x (List.mem_cons_of_mem _ hx)) _ ?_
    exact foldl_pushOcc_valid rawHistory _
      (fun e he =>
        blockOccurrences_valid rawHistory i r bs pr.1 pr.2 hmsg
          (hl pr (List.mem_cons_self _ _)) e he)
      acc hacc

/-- `scanMessage` preserves multimap validity. -/
theorem scanMessage_valid (rawHistory : List Message) (i : Nat) (msg : Message)
    (hmsg : rawHistory[i]? = some msg)
    (acc : List (String × List FileReadOccurrence))
    (hacc : MapValid rawHistory acc) :
    MapValid rawHistory (scanMessage i msg acc) := by
  obtain ⟨role, content⟩ := msg
  cases role with
  | user =>
    cases content with
    | blocks bs =>
      have hforall : ∀ pr ∈ bs.enum, bs[pr.1]? = some pr.2 := by
        intro pr hpr
        obtain ⟨bi, b⟩ := pr
        exact List.mk_mem_enum_iff_getElem?.mp hpr
      exact enum_foldl_valid rawHistory i Role.user bs hmsg bs.enum hforall
        acc hacc
    | str s => exact hacc
  | assistant =>
    cases content with
    | blocks bs => exact hacc
    | str s => exact hacc

/-- Scanner soundness: every occurrence reported by `findDuplicateFileReads`
is valid for the scanned history. -/
theorem findDuplicateFileReads_valid (rawHistory : List Message) :
    MapValid rawHistory (findDuplicateFileReads rawHistory) := by
  unfold findDuplicateFileReads
  have main : ∀ (l : List (Nat × Message)),
      (∀ pr ∈ l, rawHistory[pr.1]? = some pr.2) →
      ∀ acc, MapValid rawHistory acc →
        MapValid rawHistory
          (l.foldl (fun acc pr => scanMessage pr.1 pr.2 acc) acc) := by
    intro l
    induction l with
    | nil =>
      intro _ acc hacc
      exact hacc
    | cons pr t ih =>
      intro hl acc hacc
      exact ih (fun x hx => hl x (List.mem_cons_of_mem _ hx)) _
        (scanMessage_valid rawHistory pr.1 pr.2
          (hl pr (List.mem_cons_self _ _)) acc hacc)
  refine main rawHistory.enum ?_ [] ?_
  · intro pr hpr
    obtain ⟨n, m⟩ := pr
    exact List.mk_mem_enum_iff_getElem?.mp hpr
  · intro pr hpr
    exact absurd hpr (List.not_mem_nil _)

/-! ### Applier: per-block view of one applied log -/

/-- When `find?` misses a key, the keyed filter is empty. -/
theorem filter_key_eq_nil {β : Type} (l : List (Nat × β)) (i : Nat)
    (h : l.find? (fun e => e.1 == i) = none) :
    l.filter (fun e => e.1 == i) = [] := by
  apply List.filter_eq_nil_iff.mpr
  intro x hx
  have := List.find?_eq_none.mp h x hx
  simpa using this

/-- Under duplicate-free keys, the keyed filter is the singleton found by
`find?`. -/
theorem filter_key_of_find {β : Type} (l : List (Nat × β)) (i : Nat)
    (e : Nat × β) (hnd : (l.map Prod.fst).Nodup)
    (h : l.find? (fun e => e.1 == i) = some e) :
    l.filter (fun e' => e'.1 == i) = [e] := by
  induction l with
  | nil => cases h
  | cons a t ih =>
    have hcons : (a.1 :: t.map Prod.fst).Nodup := hnd
    obtain ⟨hna, hndt⟩ := List.nodup_cons.mp hcons
    by_cases hb : (a.1 == i) = true
    · have hfind : (a :: t).find? (fun e => e.1 == i) = some a :=
        @List.find?_cons_of_pos _ (fun e => e.1 == i) a t hb
      rw [hfind] at h
      injection h with h
      subst h
      rw [List.filter_cons, if_pos hb]
      have htf : t.filter (fun e' => e'.1 == i) = [] := by
        apply List.filter_eq_nil_iff.mpr
        intro x hx hxb
        apply hna
        have hxi : x.1 = i := by simpa using hxb
        have hai : a.1 = i := by simpa using hb
        rw [hai, ← hxi]
        exact List.mem_map.mpr ⟨x, hx, rfl⟩
      rw [htf]
    · have hstep : (a :: t).find? (fun e => e.1 == i) =
          t.find? (fun e => e.1 == i) :=
        @List.find?_cons_of_neg _ (fun e => e.1 == i) a t hb
      rw [hstep] at h
      rw [List.filter_cons, if_neg hb]
      exact ih hndt h

/-- No block entry keyed `b`: the block steps contribute nothing at `b`. -/
theorem fnsAt_blockStepsOf_nil (et : Role) (t : BlockMap) (b : Nat)
    (h : ∀ e ∈ t, ¬ (e.1 == b) = true) :
    fnsAt (blockStepsOf ⟨et, t⟩) b = [] := by
  unfold fnsAt
  rw [List.filter_eq_nil_iff.mpr, List.map_nil]
  intro p hp hpb
  obtain ⟨bu, hbu, heq⟩ := List.mem_filterMap.mp hp
  obtain ⟨u, hlast, hpe⟩ := Option.map_eq_some'.mp heq
  have hk : p.1 = bu.1 := by rw [← hpe]
  exact h bu hbu (by rw [← hk]; exact hpb)

/-- Under duplicate-free block keys, the actions aimed at block `b` are
exactly the latest recorded edit of `b`, if any. -/
theorem fnsAt_blockStepsOf (et : Role) (bm : BlockMap) (b : Nat)
    (hnd : (bm.map Prod.fst).Nodup) :
    fnsAt (blockStepsOf ⟨et, bm⟩) b =
      match (lookupBM bm b).getLast? with
      | some u => [applyUpdateToBlock u]
      | none => [] := by
  induction bm with
  | nil => rfl
  | cons bu t ih =>
    have hcons : (bu.1 :: t.map Prod.fst).Nodup := hnd
    obtain ⟨hna, hndt⟩ := List.nodup_cons.mp hcons
    by_cases hb : (bu.1 == b) = true
    · have hlk : lookupBM (bu :: t) b = bu.2 := by
        unfold lookupBM
        rw [@List.find?_cons_of_pos _ (fun e => e.1 == b) bu t hb]
        rfl
      rw [hlk]
      have htnil : fnsAt (blockStepsOf ⟨et, t⟩) b = [] := by
        apply fnsAt_blockStepsOf_nil
        intro e he heb
        apply hna
        have hei : e.1 = b := by simpa using heb
        have hbi : bu.1 = b := by simpa using hb
        rw [hbi, ← hei]
        exact List.mem_map.mpr ⟨e, he, rfl⟩
      cases hL : bu.2.getLast? with
      | some u =>
        have hsteps : blockStepsOf ⟨et, bu :: t⟩ =
            (bu.1, applyUpdateToBlock u) :: blockStepsOf ⟨et, t⟩ := by
          unfold blockStepsOf
          rw [List.filterMap_cons]
          simp only [hL, Option.map_some']
        rw [hsteps]
        unfold fnsAt
        rw [List.filter_cons, if_pos hb, List.map_cons]
        unfold fnsAt at htnil
        rw [htnil]
      | none =>
        have hsteps : blockStepsOf ⟨et, bu :: t⟩ = blockStepsOf ⟨et, t⟩ := by
          unfold blockStepsOf
          rw [List.filterMap_cons]
          simp only [hL, Option.map_none']
        rw [hsteps, htnil]
    · have hlk : lookupBM (bu :: t) b = lookupBM t b := by
        unfold lookupBM
        rw [@List.find?_cons_of_neg _ (fun e => e.1 == b) bu t hb]
      rw [hlk, ← ih hndt]
      cases hL : bu.2.getLast? with
      | some u =>
        have hsteps : blockStepsOf ⟨et, bu :: t⟩ =
            (bu.1, applyUpdateToBlock u) :: blockStepsOf ⟨et, t⟩ := by
          unfold blockStepsOf
          rw [List.filterMap_cons]
          simp only [hL, Option.map_some']
        rw [hsteps]
        unfold fnsAt
        rw [List.filter_cons, if_neg hb]
      | none =>
        have hsteps : blockStepsOf ⟨et, bu :: t⟩ = blockStepsOf ⟨et, t⟩ := by
          unfold blockStepsOf
          rw [List.filterMap_cons]
          simp only [hL, Option.map_none']
        rw [hsteps]

/-- Per-block view of the applier: with duplicate-free message and block keys,
the prepared block at `(i, b)` is the raw block transformed by the latest
recorded edit of `(i, b)`, if any. -/
theorem blockAt_applyMods (H : List Message) (L : EditLog)
    (hndL : (L.map Prod.fst).Nodup)
    (hndB : ∀ e ∈ L, (e.2.blocks.map Prod.fst).Nodup) (i b : Nat) :
    blockAt (applyModificationsToHistory H L) i b =
      (blockAt H i b).map (fun blk =>
        match (lookupBlock L i b).getLast? with
        | some u => applyUpdateToBlock u blk
        | none => blk) := by
  unfold blockAt
  rw [getElem?_applyMods]
  cases hm : H[i]? with
  | none => rfl
  | some msg =>
    simp only [Option.map_some']
    have hfns := fnsAt_map applyEntryToMessage L i
    cases hf : L.find? (fun e => e.1 == i) with
    | none =>
      have hflt := filter_key_eq_nil L i hf
      have hchain : chainFns
          (fnsAt (L.map (fun e => (e.1, applyEntryToMessage e.2))) i) msg = msg := by
        rw [hfns, hflt]
        rfl
      have hlkE : lookupEntry L i = none := by
        unfold lookupEntry
        rw [hf]
        rfl
      have hlkB : lookupBlock L i b = [] := by
        unfold lookupBlock
        rw [hlkE]
      rw [hchain, hlkB]
      cases hc : msg.content with
      | blocks bs =>
        show bs[b]? = Option.map _ bs[b]?
        cases hbb : bs[b]? <;> rfl
      | str s => rfl
    | some e =>
      have heL : e ∈ L := List.mem_of_find?_eq_some hf
      have hflt := filter_key_of_find L i e hndL hf
      have hchain : chainFns
          (fnsAt (L.map (fun e => (e.1, applyEntryToMessage e.2))) i) msg =
          applyEntryToMessage e.2 msg := by
        rw [hfns, hflt]
        rfl
      have hlkE : lookupEntry L i = some e.2 := by
        unfold lookupEntry
        rw [hf]
        rfl
      have hlkB : lookupBlock L i b = lookupBM e.2.blocks b := by
        unfold lookupBlock
        rw [hlkE]
      rw [hchain, hlkB]
      cases hc : msg.content with
      | str s =>
        have hid : applyEntryToMessage e.2 msg = msg := by
          unfold applyEntryToMessage
          rw [hc]
        rw [hid, hc]
        rfl
      | blocks bs =>
        have happ : applyEntryToMessage e.2 msg =
            { msg with content :=
                MsgContent.blocks (applySteps (blockStepsOf e.2) bs) } := by
          unfold applyEntryToMessage
          rw [hc]
        rw [happ]
        simp only
        rw [getElem?_applySteps]
        have hmu : e.2 = (⟨e.2.editType, e.2.blocks⟩ : MessageUpdates) := rfl
        have hfb := fnsAt_blockStepsOf e.2.editType e.2.blocks b (hndB e heL)
        rw [← hmu] at hfb
        rw [hfb]
        cases hbb : bs[b]? with
        | none => rfl
        | some blk =>
          simp only [Option.map_some']
          cases hL : (lookupBM e.2.blocks b).getLast? <;> rfl

/-! ### Elider: content of fresh elision edits, log well-formedness -/

/-- `replace_content` with a string payload rewrites a text block to the
payload. -/
theorem stepU_replace (u : ContextUpdate)
    (hu : u.updateType = UpdateType.replace_content) (s : String)
    (hc : u.content = some s) (t : String) :
    applyUpdateToBlock u (Block.text t) = Block.text s := by
  obtain ⟨ts, ut, ct, md⟩ := u
  simp only at hu hc
  subst hu
  subst hc
  rfl

/-- The elision edit built for a mention occurrence over a block with no
accumulated edits: the raw text with the mention replaced by the
notice-wrapped tag. -/
theorem mkElisionUpdate_fresh_eq (now : Nat) (raw : List Message)
    (log : EditLog) (p : String) (o : FileReadOccurrence) (fm : String)
    (ho : o.fullMatch = some fm) (t : String)
    (hba : blockAt raw o.messageIndex o.blockIndex = some (Block.text t))
    (hemp : lookupBlock log o.messageIndex o.blockIndex = [])
    (hte : t ≠ "") :
    mkElisionUpdate now raw log p o =
      ⟨now, UpdateType.replace_content,
       some (replaceFirst t fm ("<file_content path=\"" ++ p ++ "\">"
          ++ duplicateFileReadNotice ++ "</file_content>")),
       some ⟨p, true⟩⟩ := by
  unfold mkElisionUpdate
  rw [ho, hemp]
  simp only [List.getLast?_nil, hba]
  have h0 : (if "" ≠ "" then "" else t) = t := by simp
  rw [h0, if_pos hte]

/-- On an empty accumulated log, the elision edit built for a valid occurrence
carries a payload containing the duplicate-read notice. -/
theorem mkElisionUpdate_empty_notice (now : Nat) (raw : List Message)
    (p : String) (o : FileReadOccurrence) (hv : OccValid raw p o) :
    ∃ s, (mkElisionUpdate now raw [] p o).content = some s ∧
      strHasSub s duplicateFileReadNotice := by
  obtain ⟨hfp, hlt, t, hba, hfm⟩ := hv
  cases ho : o.fullMatch with
  | none =>
    refine ⟨duplicateFileReadNotice, ?_, ⟨[], [], by simp⟩⟩
    unfold mkElisionUpdate
    rw [ho]
  | some fm =>
    rw [ho] at hfm
    obtain ⟨hne, pre, post, hdecomp⟩ := hfm
    have hte : t ≠ "" := by
      intro ht
      subst ht
      have h0 : ([] : List Char) = pre ++ fm.toList ++ post := hdecomp
      have h1 := List.append_eq_nil.mp h0.symm
      have h2 := List.append_eq_nil.mp h1.1
      exact hne h2.2
    have hmk := mkElisionUpdate_fresh_eq now raw [] p o fm ho t hba rfl hte
    refine ⟨_, by rw [hmk], ?_⟩
    apply strHasSub_trans _ ("<file_content path=\"" ++ p ++ "\">"
        ++ duplicateFileReadNotice ++ "</file_content>") _
      (strHasSub_replaceFirst t fm _ ⟨pre, post, hdecomp⟩)
    exact ⟨("<file_content path=\"" ++ p ++ "\">").toList,
      "</file_content>".toList, by simp [toList_append]⟩

/-- Keys after a sorted insert come from the inserted key or the old keys. -/
theorem mem_keys_setSorted {α : Type} (k : Nat) (v : α) :
    ∀ (l : List (Nat × α)) (j : Nat),
      j ∈ (setSorted k v l).map Prod.fst → j = k ∨ j ∈ l.map Prod.fst := by
  intro l
  induction l with
  | nil =>
    intro j hj
    simp [setSorted] at hj
    exact Or.inl hj
  | cons e t ih =>
    intro j hj
    by_cases h1 : k < e.1
    · rw [show setSorted k v (e :: t) = (k, v) :: e :: t by
        simp [setSorted, h1]] at hj
      rcases List.mem_cons.mp hj with h | h
      · exact Or.inl h
      · exact Or.inr h
    · by_cases h2 : k = e.1
      · rw [show setSorted k v (e :: t) = (k, v) :: t by
          simp [setSorted, h1, h2]] at hj
        rcases List.mem_cons.mp hj with h | h
        · exact Or.inl h
        · exact Or.inr (List.mem_cons_of_mem _ h)
      · rw [show setSorted k v (e :: t) = e :: setSorted k v t by
          simp [setSorted, h1, h2]] at hj
        rcases List.mem_cons.mp hj with h | h
        · subst h
          exact Or.inr (by rw [List.map_cons]; exact List.mem_cons_self _ _)
        · rcases ih j h with h' | h'
          · exact Or.inl h'
          · exact Or.inr (by rw [List.map_cons]; exact List.mem_cons_of_mem _ h')

/-- Entries after a sorted insert are the inserted pair or old entries. -/
theorem mem_setSorted {α : Type} (k : Nat) (v : α) :
    ∀ (l : List (Nat × α)) (e : Nat × α),
      e ∈ setSorted k v l → e = (k, v) ∨ e ∈ l := by
  intro l
  induction l with
  | nil =>
    intro e he
    simp [setSorted] at he
    exact Or.inl he
  | cons a t ih =>
    intro e he
    by_cases h1 : k < a.1
    · rw [show setSorted k v (a :: t) = (k, v) :: a :: t by
        simp [setSorted, h1]] at he
      rcases List.mem_cons.mp he with h | h
      · exact Or.inl h
      · exact Or.inr h
    · by_cases h2 : k = a.1
      · rw [show setSorted k v (a :: t) = (k, v) :: t by
          simp [setSorted, h1, h2]] at he
        rcases List.mem_cons.mp he with h | h
        · exact Or.inl h
        · exact Or.inr (List.mem_cons_of_mem _ h)
      · rw [show setSorted k v (a :: t) = a :: setSorted k v t by
          simp [setSorted, h1, h2]] at he
        rcases List.mem_cons.mp he with h | h
        · exact Or.inr (by rw [h]; exact List.mem_cons_self _ _)
        · rcases ih e h with h' | h'
          · exact Or.inl h'
          · exact Or.inr (List.mem_cons_of_mem _ h')

/-- A sorted insert keeps the keys strictly ascending. -/
theorem ascKeys_setSorted {α : Type} (k : Nat) (v : α) :
    ∀ (l : List (Nat × α)), AscKeys l → AscKeys (setSorted k v l) := by
  intro l
  unfold AscKeys
  rw [List.chain'_iff_pairwise, List.chain'_iff_pairwise]
  induction l with
  | nil =>
    intro _
    simp [setSorted]
  | cons e t ih =>
    intro hpw
    rw [List.map_cons, List.pairwise_cons] at hpw
    obtain ⟨hhead, htail⟩ := hpw
    by_cases h1 : k < e.1
    · rw [show setSorted k v (e :: t) = (k, v) :: e :: t by
        simp [setSorted, h1]]
      rw [List.map_cons, List.map_cons, List.pairwise_cons]
      refine ⟨?_, ?_⟩
      · intro j hj
        rcases List.mem_cons.mp hj with h | h
        · subst h
          exact h1
        · exact lt_trans h1 (hhead j h)
      · rw [← List.map_cons]
        rw [List.map_cons, List.pairwise_cons]
        exact ⟨hhead, htail⟩
    · by_cases h2 : k = e.1
      · rw [show setSorted k v (e :: t) = (k, v) :: t by
          simp [setSorted, h1, h2]]
        rw [List.map_cons, List.pairwise_cons]
        refine ⟨?_, htail⟩
        intro j hj
        rw [h2]
        exact hhead j hj
      · rw [show setSorted k v (e :: t) = e :: setSorted k v t by
          simp [setSorted, h1, h2]]
        rw [List.map_cons, List.pairwise_cons]
        refine ⟨?_, ih htail⟩
        intro j hj
        rcases mem_keys_setSorted k v t j hj with h | h
        · subst h
          omega
        · exact hhead j h

/-- `elidePush` keeps the log well-formed. -/
theorem WfLog_elidePush (now : Nat) (raw : List Message) (log : EditLog)
    (p : String) (o : FileReadOccurrence) (hwf : WfLog log) :
    WfLog (elidePush now raw log p o) := by
  obtain ⟨hasc, hblocks⟩ := hwf
  unfold elidePush
  cases hE : lookupEntry log o.messageIndex with
  | some mu =>
    simp only [hE]
    have hmuB : AscKeys mu.blocks := by
      unfold lookupEntry at hE
      cases hf : log.find? (fun e => e.1 == o.messageIndex) with
      | none => rw [hf] at hE; cases hE
      | some e =>
        rw [hf] at hE
        injection hE with hE
        have hE2 : e.2 = mu := hE
        have := hblocks e (List.mem_of_find?_eq_some hf)
        rw [← hE2]
        exact this
    constructor
    · exact ascKeys_setSorted _ _ _ hasc
    · intro e he
      rcases mem_setSorted _ _ _ _ he with h | h
      · subst h
        exact ascKeys_setSorted _ _ _ hmuB
      · exact hblocks e h
  | none =>
    cases hR : raw[o.messageIndex]? with
    | none =>
      simp only [hE, hR]
      exact ⟨hasc, hblocks⟩
    | some msg =>
      simp only [hE, hR]
      rw [lookupEntry_setEntry, if_pos rfl]
      simp only
      constructor
      · exact ascKeys_setSorted _ _ _ (ascKeys_setSorted _ _ _ hasc)
      · intro e he
        rcases mem_setSorted _ _ _ _ he with h | h
        · subst h
          exact ascKeys_setSorted _ _ _ (by simp [AscKeys])
        · rcases mem_setSorted _ _ _ _ h with h' | h'
          · subst h'
            simp [AscKeys]
          · exact hblocks e h'

/-- `foldElide` keeps the log well-formed. -/
theorem WfLog_foldElide (now : Nat) (raw : List Message) :
    ∀ (ps : List (String × FileReadOccurrence)) (log : EditLog),
      WfLog log → WfLog (foldElide now raw ps log) := by
  intro ps
  induction ps with
  | nil =>
    intro log h
    exact h
  | cons q ps ih =>
    intro log h
    exact ih _ (WfLog_elidePush now raw log q.1 q.2 h)

/-! ### Elider: characterization under distinct positions -/

/-- Positions untouched by any processed occurrence keep their edit lists. -/
theorem foldElide_preserve (now : Nat) (raw : List Message)
    (ps : List (String × FileReadOccurrence)) (log : EditLog) (i b : Nat)
    (hlt : ∀ q ∈ ps, q.2.messageIndex < raw.length)
    (hnm : ∀ q ∈ ps, ¬ (q.2.messageIndex = i ∧ q.2.blockIndex = b)) :
    lookupBlock (foldElide now raw ps log) i b = lookupBlock log i b := by
  obtain ⟨s, hs, hlen, _⟩ := foldElide_suffix now raw ps log hlt i b
  have hfilt : (ps.filter
      (fun q => q.2.messageIndex == i && q.2.blockIndex == b)) = [] := by
    apply List.filter_eq_nil_iff.mpr
    intro q hq hqb
    simp only [Bool.and_eq_true, beq_iff_eq] at hqb
    exact hnm q hq hqb
  rw [hfilt] at hlen
  simp only [List.length_nil] at hlen
  rw [List.length_eq_zero.mp hlen] at hs
  simpa using hs

/-- With pairwise-distinct positions and no pre-existing edits at those
positions, each processed occurrence ends up with exactly one edit: the one
built over the empty log. -/
theorem foldElide_distinct (now : Nat) (raw : List Message) :
    ∀ (ps : List (String × FileReadOccurrence)) (log : EditLog),
      (∀ q ∈ ps, q.2.messageIndex < raw.length) →
      (∀ q ∈ ps, lookupBlock log q.2.messageIndex q.2.blockIndex = []) →
      ps.Pairwise (fun q q' => ¬ (q.2.messageIndex = q'.2.messageIndex ∧
        q.2.blockIndex = q'.2.blockIndex)) →
      ∀ q ∈ ps, lookupBlock (foldElide now raw ps log)
          q.2.messageIndex q.2.blockIndex =
        [mkElisionUpdate now raw [] q.1 q.2] := by
  intro ps
  induction ps with
  | nil =>
    intro log _ _ _ q hq
    cases hq
  | cons q0 ps ih =>
    intro log hlt hemp hpw q hq
    have hstep : foldElide now raw (q0 :: ps) log =
        foldElide now raw ps (elidePush now raw log q0.1 q0.2) := rfl
    obtain ⟨hpw0, hpwt⟩ := List.pairwise_cons.mp hpw
    rcases List.mem_cons.mp hq with rfl | hmem
    · rw [hstep]
      rw [foldElide_preserve now raw ps _ _ _
        (fun q' hq' => hlt q' (List.mem_cons_of_mem _ hq'))
        (fun q' hq' hc => hpw0 q' hq' ⟨hc.1.symm, hc.2.symm⟩)]
      rw [lookupBlock_elidePush_self now raw log q.1 q.2
        (hlt q (List.mem_cons_self _ _))]
      rw [hemp q (List.mem_cons_self _ _), List.nil_append]
      congr 1
      apply mkElisionUpdate_congr
      rw [hemp q (List.mem_cons_self _ _)]
      rfl
    · rw [hstep]
      refine ih _ (fun q' hq' => hlt q' (List.mem_cons_of_mem _ hq'))
        ?_ hpwt q hmem
      intro q' hq'
      rw [lookupBlock_elidePush_other now raw log q0.1 q0.2 _ _
        (fun hc => hpw0 q' hq' ⟨hc.1.symm, hc.2.symm⟩)]
      exact hemp q' (List.mem_cons_of_mem _ hq')

/-- Every processed occurrence comes from a path with at least two scanned
occurrences, and is not that path's last occurrence. -/
theorem processedOccurrences_mem (fr : List (String × List FileReadOccurrence)) :
    ∀ q ∈ processedOccurrences fr,
      ∃ os, (q.1, os) ∈ fr ∧ q.2 ∈ os.dropLast ∧ 2 ≤ os.length := by
  induction fr with
  | nil =>
    intro q hq
    cases hq
  | cons pr fr ih =>
    intro q hq
    rw [processedOccurrences_cons] at hq
    rcases List.mem_append.mp hq with h | h
    · by_cases hlen : pr.2.length ≤ 1
      · rw [if_pos hlen] at h
        cases h
      · rw [if_neg hlen] at h
        obtain ⟨o, ho, heq⟩ := List.mem_map.mp h
        subst heq
        exact ⟨pr.2, List.mem_cons_self pr fr, ho, by omega⟩
    · obtain ⟨os, h1, h2, h3⟩ := ih q h
      exact ⟨os, List.mem_cons_of_mem _ h1, h2, h3⟩

/-- Conversely, every non-last occurrence of a duplicated path is
processed. -/
theorem processedOccurrences_of_mem
    (fr : List (String × List FileReadOccurrence))
    (pr : String × List FileReadOccurrence) (hpr : pr ∈ fr)
    (h2 : ¬ (pr.2.length ≤ 1)) (o : FileReadOccurrence)
    (ho : o ∈ pr.2.dropLast) :
    (pr.1, o) ∈ processedOccurrences fr := by
  induction fr with
  | nil => cases hpr
  | cons hd fr ih =>
    rw [processedOccurrences_cons]
    rcases List.mem_cons.mp hpr with h | h
    · subst h
      apply List.mem_append_left
      rw [if_neg h2]
      exact List.mem_map.mpr ⟨o, ho, rfl⟩
    · exact List.mem_append_right _ (ih h)

/-! ### C4: elision keeps last -/

/-- **C4** (counterexample).  On `cexHistoryC4` with live log `cexLogC4`,
path `B` has three occurrences and its second occurrence `(2, 1)` is
non-final; yet after one elider call the prepared block there reads
`"hello"`, which does not contain the duplicate-read notice: the pre-existing
`replace_content` edit at `(2, 1)` feeds the elision payload and the mention
is not found in it, so the claim that occurrences `1..k-1` contain the
notice in the prepared history fails. -/
theorem applyOptimizations_keeps_last_cex :
    (findDuplicateFileReads cexHistoryC4 =
      [("A", [⟨0, 1, "A", none⟩, ⟨2, 1, "A", none⟩]),
       ("B", [⟨0, 1, "B", some "<file_content path=\"B\">x</file_content>"⟩,
              ⟨2, 1, "B", some "<file_content path=\"B\">x</file_content>"⟩,
              ⟨4, 0, "B", some "<file_content path=\"B\">x</file_content>"⟩])]) ∧
    blockAt (applyModificationsToHistory cexHistoryC4
        (applyOptimizations 7 cexHistoryC4 cexLogC4)) 2 1
      = some (Block.text "hello") ∧
    ¬ strHasSub "hello" duplicateFileReadNotice := by
  refine ⟨by decide, by decide, ?_⟩
  rintro ⟨b, a, h⟩
  have hlen := congrArg List.length h
  have h5 : ("hello".toList).length = 5 := by decide
  have h5' : (duplicateFileReadNotice.toList).length = 5 := by decide
  rw [List.length_append, List.length_append, h5', h5] at hlen
  have hb : b.length = 0 := by omega
  have ha : a.length = 0 := by omega
  rw [List.length_eq_zero.mp hb, List.length_eq_zero.mp ha] at h
  simp only [List.nil_append, List.append_nil] at h
  exact absurd h (by decide)

/-- **C4** (amended).  Elision keeps last, under the provisos that the
processed (non-final) occurrences have pairwise-distinct block positions, no
position of a scanned occurrence carries pre-existing edits, and the final
occurrence of each path does not share its position with any processed
occurrence.  Then each non-final occurrence's block receives exactly one
`replace_content` edit stamped with the call timestamp whose application puts
the duplicate-read notice into the prepared block, and each path's final
occurrence is unmodified in the prepared history. -/
theorem applyOptimizations_keeps_last_amended
    (now : Nat) (raw : List Message) (L : EditLog) (hwf : WfLog L)
    (hdist : (processedOccurrences (findDuplicateFileReads raw)).Pairwise
      (fun q q' => ¬ (q.2.messageIndex = q'.2.messageIndex ∧
        q.2.blockIndex = q'.2.blockIndex)))
    (hemp : ∀ q ∈ processedOccurrences (findDuplicateFileReads raw),
      lookupBlock L q.2.messageIndex q.2.blockIndex = [])
    (hfin : ∀ pr ∈ findDuplicateFileReads raw, ∀ olast,
      pr.2.getLast? = some olast →
      (∀ q ∈ processedOccurrences (findDuplicateFileReads raw),
        ¬ (q.2.messageIndex = olast.messageIndex ∧
           q.2.blockIndex = olast.blockIndex)) ∧
      lookupBlock L olast.messageIndex olast.blockIndex = []) :
    (∀ q ∈ processedOccurrences (findDuplicateFileReads raw),
      ∃ u s, lookupBlock (applyOptimizations now raw L)
          q.2.messageIndex q.2.blockIndex = [u] ∧
        u.ts = now ∧ u.updateType = UpdateType.replace_content ∧
        blockAt (applyModificationsToHistory raw (applyOptimizations now raw L))
          q.2.messageIndex q.2.blockIndex = some (Block.text s) ∧
        strHasSub s duplicateFileReadNotice) ∧
    (∀ pr ∈ findDuplicateFileReads raw, ∀ olast,
      pr.2.getLast? = some olast →
      blockAt (applyModificationsToHistory raw (applyOptimizations now raw L))
          olast.messageIndex olast.blockIndex =
        blockAt raw olast.messageIndex olast.blockIndex) := by
  have hvalid := findDuplicateFileReads_valid raw
  have hOV : ∀ q ∈ processedOccurrences (findDuplicateFileReads raw),
      OccValid raw q.1 q.2 := by
    intro q hq
    obtain ⟨os, hosmem, hdl, _⟩ :=
      processedOccurrences_mem (findDuplicateFileReads raw) q hq
    exact hvalid (q.1, os) hosmem q.2 ((List.dropLast_sublist os).subset hdl)
  have hlt : ∀ q ∈ processedOccurrences (findDuplicateFileReads raw),
      q.2.messageIndex < raw.length := fun q hq => (hOV q hq).2.1
  have happ := applyOptimizations_eq_foldElide now raw L
  have hwf' : WfLog (applyOptimizations now raw L) := by
    rw [happ]
    exact WfLog_foldElide now raw _ L hwf
  have hndL' := nodup_keys_of_asc hwf'.1
  have hndB' : ∀ e ∈ applyOptimizations now raw L,
      (e.2.blocks.map Prod.fst).Nodup :=
    fun e he => nodup_keys_of_asc (hwf'.2 e he)
  constructor
  · intro q hq
    have hlb : lookupBlock (applyOptimizations now raw L)
        q.2.messageIndex q.2.blockIndex =
        [mkElisionUpdate now raw [] q.1 q.2] := by
      rw [happ]
      exact foldElide_distinct now raw _ L hlt hemp hdist q hq
    obtain ⟨s, hcontent, hnotice⟩ :=
      mkElisionUpdate_empty_notice now raw q.1 q.2 (hOV q hq)
    obtain ⟨hts, hut, _⟩ := mkElisionUpdate_fields now raw [] q.1 q.2
    obtain ⟨_, _, t, hba, _⟩ := hOV q hq
    refine ⟨mkElisionUpdate now raw [] q.1 q.2, s, hlb, hts, hut, ?_, hnotice⟩
    rw [blockAt_applyMods raw _ hndL' hndB', hlb, hba]
    simp only [Option.map_some']
    show some (applyUpdateToBlock (mkElisionUpdate now raw [] q.1 q.2)
        (Block.text t)) = some (Block.text s)
    rw [stepU_replace _ hut s hcontent t]
  · intro pr hpr olast hol
    obtain ⟨hnm, hempl⟩ := hfin pr hpr olast hol
    have hpres : lookupBlock (applyOptimizations now raw L)
        olast.messageIndex olast.blockIndex = [] := by
      rw [happ, foldElide_preserve now raw _ L _ _ hlt hnm]
      exact hempl
    rw [blockAt_applyMods raw _ hndL' hndB', hpres]
    cases blockAt raw olast.messageIndex olast.blockIndex <;> rfl

/-- Witness for the amended C4 on the duplicated-mention fixture with an
empty live log. -/
theorem applyOptimizations_keeps_last_amended_witness :
    WfLog ([] : EditLog) ∧
    ((processedOccurrences (findDuplicateFileReads cexHistoryC10)).Pairwise
      (fun q q' => ¬ (q.2.messageIndex = q'.2.messageIndex ∧
        q.2.blockIndex = q'.2.blockIndex))) ∧
    (∀ q ∈ processedOccurrences (findDuplicateFileReads cexHistoryC10),
      lookupBlock [] q.2.messageIndex q.2.blockIndex = []) ∧
    (∀ pr ∈ findDuplicateFileReads cexHistoryC10, ∀ olast,
      pr.2.getLast? = some olast →
      (∀ q ∈ processedOccurrences (findDuplicateFileReads cexHistoryC10),
        ¬ (q.2.messageIndex = olast.messageIndex ∧
           q.2.blockIndex = olast.blockIndex)) ∧
      lookupBlock [] olast.messageIndex olast.blockIndex = []) ∧
    ((∀ q ∈ processedOccurrences (findDuplicateFileReads cexHistoryC10),
      ∃ u s, lookupBlock (applyOptimizations 5 cexHistoryC10 [])
          q.2.messageIndex q.2.blockIndex = [u] ∧
        u.ts = 5 ∧ u.updateType = UpdateType.replace_content ∧
        blockAt (applyModificationsToHistory cexHistoryC10
            (applyOptimizations 5 cexHistoryC10 []))
          q.2.messageIndex q.2.blockIndex = some (Block.text s) ∧
        strHasSub s duplicateFileReadNotice) ∧
    (∀ pr ∈ findDuplicateFileReads cexHistoryC10, ∀ olast,
      pr.2.getLast? = some olast →
      blockAt (applyModificationsToHistory cexHistoryC10
          (applyOptimizations 5 cexHistoryC10 []))
          olast.messageIndex olast.blockIndex =
        blockAt cexHistoryC10 olast.messageIndex olast.blockIndex)) := by
  have hfr : findDuplicateFileReads cexHistoryC10 =
      [("X", [⟨2, 0, "X", some "<file_content path=\"X\">c</file_content>"⟩,
              ⟨4, 0, "X", some "<file_content path=\"X\">c</file_content>"⟩])] := by
    decide
  have h1 : WfLog ([] : EditLog) := by
    constructor
    · simp [AscKeys]
    · intro e he
      cases he
  have h2 : (processedOccurrences (findDuplicateFileReads cexHistoryC10)).Pairwise
      (fun q q' => ¬ (q.2.messageIndex = q'.2.messageIndex ∧
        q.2.blockIndex = q'.2.blockIndex)) := by
    rw [hfr]
    decide
  have h3 : ∀ q ∈ processedOccurrences (findDuplicateFileReads cexHistoryC10),
      lookupBlock [] q.2.messageIndex q.2.blockIndex = [] := by
    rw [hfr]
    decide
  have h4 : ∀ pr ∈ findDuplicateFileReads cexHistoryC10, ∀ olast,
      pr.2.getLast? = some olast →
      (∀ q ∈ processedOccurrences (findDuplicateFileReads cexHistoryC10),
        ¬ (q.2.messageIndex = olast.messageIndex ∧
           q.2.blockIndex = olast.blockIndex)) ∧
      lookupBlock [] olast.messageIndex olast.blockIndex = [] := by
    rw [hfr]
    intro pr hpr olast hol
    obtain rfl := List.mem_singleton.mp hpr
    have hol2 : some (⟨4, 0, "X",
        some "<file_content path=\"X\">c</file_content>"⟩ : FileReadOccurrence)
        = some olast := hol
    injection hol2 with hol2
    subst hol2
    constructor
    · decide
    · rfl
  exact ⟨h1, h2, h3, h4,
    applyOptimizations_keeps_last_amended 5 cexHistoryC10 [] h1 h2 h3 h4⟩

/-! ### C10: elision and the edit log across calls -/

/-- Concrete evaluation of one facade call on `cexHistoryC10` with the
already-noticed live log `cexLogC10` and a previous count far above the
limit: truncation evicts `[2, 4)`, the elision edit at message 2 is dropped
by the index rewrite, the resulting log equals the live log, and the store
is not invoked. -/
theorem procC10_eval :
    processHistoryForApi (fun s => s.length) cexCfg cexLogC10 cexHistoryC10
        1000000 5 =
      ⟨[mkTextMsg Role.user "a", mkTextMsg Role.assistant "[trunc]\nb",
        mkTextMsg Role.user "<file_content path=\"X\">c</file_content>",
        mkTextMsg Role.assistant "e"],
       cexLogC10, 50, true, cexLogC10, false⟩ := by
  rw [processHistoryForApi_of_pos _ _ _ _ _ _ (by rw [budget_cexCfg]; norm_num)]
  rw [budget_cexCfg]
  rw [show applyOptimizations 5 cexHistoryC10 cexLogC10 =
      [(1, ⟨Role.assistant, [(0, [noticeUpdate 0])]⟩),
       (2, ⟨Role.user, [(0, [⟨5, UpdateType.replace_content,
          some "<file_content path=\"X\">[dup]</file_content>",
          some ⟨"X", true⟩⟩])]⟩)] from by decide]
  rw [show applyModificationsToHistory
        (applyContextHistoryUpdates cexHistoryC10 cexLogC10)
        [(1, ⟨Role.assistant, [(0, [noticeUpdate 0])]⟩),
         (2, ⟨Role.user, [(0, [⟨5, UpdateType.replace_content,
            some "<file_content path=\"X\">[dup]</file_content>",
            some ⟨"X", true⟩⟩])]⟩)] =
      [mkTextMsg Role.user "a", mkTextMsg Role.assistant "[trunc]\nb",
       mkTextMsg Role.user "<file_content path=\"X\">[dup]</file_content>",
       mkTextMsg Role.assistant "d",
       mkTextMsg Role.user "<file_content path=\"X\">c</file_content>",
       mkTextMsg Role.assistant "e"] from by decide]
  rw [show cexCfg.truncationPercentage = (1/2 : Rat) from rfl]
  rw [applyTruncation_of_lt _ _ _ _ _ _ _
    (by norm_num : (158500 : Rat) < 1000000)]
  rw [if_pos (by decide :
    ([mkTextMsg Role.user "a", mkTextMsg Role.assistant "[trunc]\nb",
      mkTextMsg Role.user "<file_content path=\"X\">[dup]</file_content>",
      mkTextMsg Role.assistant "d",
      mkTextMsg Role.user "<file_content path=\"X\">c</file_content>",
      mkTextMsg Role.assistant "e"]).length > 2)]
  rw [show ([mkTextMsg Role.user "a", mkTextMsg Role.assistant "[trunc]\nb",
      mkTextMsg Role.user "<file_content path=\"X\">[dup]</file_content>",
      mkTextMsg Role.assistant "d",
      mkTextMsg Role.user "<file_content path=\"X\">c</file_content>",
      mkTextMsg Role.assistant "e"]).length = 6 from rfl, removalCount_6_half]
  decide

/-- **C10** (counterexample).  On `cexHistoryC10` — where path `X` has two
occurrences — with the already-noticed live log `cexLogC10` and a previous
count above the limit, a `processHistoryForApi` call returns the live log
unchanged and does not invoke the store (truncation evicts the freshly
elided message and the index rewrite discards its edit); the immediately
following call starts from the same log and again does not invoke the store.
This refutes the claim that two consecutive calls both change the edit log
and both persist. -/
theorem elision_persist_cex :
    (∃ pr ∈ findDuplicateFileReads cexHistoryC10, 2 ≤ pr.2.length) ∧
    (processHistoryForApi (fun s => s.length) cexCfg cexLogC10 cexHistoryC10
        1000000 5).newLiveLog = cexLogC10 ∧
    (processHistoryForApi (fun s => s.length) cexCfg cexLogC10 cexHistoryC10
        1000000 5).storeInvoked = false ∧
    (processHistoryForApi (fun s => s.length) cexCfg
        (processHistoryForApi (fun s => s.length) cexCfg cexLogC10
          cexHistoryC10 1000000 5).newLiveLog
        cexHistoryC10 1000000 6).storeInvoked = false := by
  refine ⟨by decide, ?_, ?_, ?_⟩
  · rw [procC10_eval]
  · rw [procC10_eval]
  · rw [procC10_eval]
    show (processHistoryForApi (fun s => s.length) cexCfg cexLogC10
        cexHistoryC10 1000000 6).storeInvoked = false
    rw [processHistoryForApi_of_pos _ _ _ _ _ _ (by rw [budget_cexCfg]; norm_num)]
    rw [budget_cexCfg]
    rw [show applyOptimizations 6 cexHistoryC10 cexLogC10 =
        [(1, ⟨Role.assistant, [(0, [noticeUpdate 0])]⟩),
         (2, ⟨Role.user, [(0, [⟨6, UpdateType.replace_content,
            some "<file_content path=\"X\">[dup]</file_content>",
            some ⟨"X", true⟩⟩])]⟩)] from by decide]
    rw [show applyModificationsToHistory
          (applyContextHistoryUpdates cexHistoryC10 cexLogC10)
          [(1, ⟨Role.assistant, [(0, [noticeUpdate 0])]⟩),
           (2, ⟨Role.user, [(0, [⟨6, UpdateType.replace_content,
              some "<file_content path=\"X\">[dup]</file_content>",
              some ⟨"X", true⟩⟩])]⟩)] =
        [mkTextMsg Role.user "a", mkTextMsg Role.assistant "[trunc]\nb",
         mkTextMsg Role.user "<file_content path=\"X\">[dup]</file_content>",
         mkTextMsg Role.assistant "d",
         mkTextMsg Role.user "<file_content path=\"X\">c</file_content>",
         mkTextMsg Role.assistant "e"] from by decide]
    rw [show cexCfg.truncationPercentage = (1/2 : Rat) from rfl]
    rw [applyTruncation_of_lt _ _ _ _ _ _ _
      (by norm_num : (158500 : Rat) < 1000000)]
    rw [if_pos (by decide :
      ([mkTextMsg Role.user "a", mkTextMsg Role.assistant "[trunc]\nb",
        mkTextMsg Role.user "<file_content path=\"X\">[dup]</file_content>",
        mkTextMsg Role.assistant "d",
        mkTextMsg Role.user "<file_content path=\"X\">c</file_content>",
        mkTextMsg Role.assistant "e"]).length > 2)]
    rw [show ([mkTextMsg Role.user "a", mkTextMsg Role.assistant "[trunc]\nb",
        mkTextMsg Role.user "<file_content path=\"X\">[dup]</file_content>",
        mkTextMsg Role.assistant "d",
        mkTextMsg Role.user "<file_content path=\"X\">c</file_content>",
        mkTextMsg Role.assistant "e"]).length = 6 from rfl, removalCount_6_half]
    decide

/-- **C10** (amended).  On a raw history in which some path has at least two
occurrences, every elider call appends at least one fresh `replace_content`
edit — stamped with that call's instant — to each non-final occurrence's
block, so the elider is never a no-op on the log; consequently, when the
budget is positive and the previous request count is within the limit (no
truncation interferes with the candidate log), two consecutive
`processHistoryForApi` calls on the same raw history both return a changed
log and both invoke the persistence store. -/
theorem elision_log_growth_amended (tokenizer : String → Nat) (cfg : CMConfig)
    (L : EditLog) (raw : List Message) (P : Rat) (now now2 : Nat)
    (hocc : ∃ pr ∈ findDuplicateFileReads raw, 2 ≤ pr.2.length)
    (hb : 0 < (getContextWindowInfo cfg.currentModelInfo).maxAllowedSize -
        cfg.reservedResponseTokens - cfg.tokenBuffer)
    (hP : P ≤ (getContextWindowInfo cfg.currentModelInfo).maxAllowedSize -
        cfg.reservedResponseTokens - cfg.tokenBuffer) :
    (∀ (L0 : EditLog) (m : Nat),
      ∀ q ∈ processedOccurrences (findDuplicateFileReads raw),
        ∃ s, lookupBlock (applyOptimizations m raw L0)
            q.2.messageIndex q.2.blockIndex =
          lookupBlock L0 q.2.messageIndex q.2.blockIndex ++ s ∧ s ≠ [] ∧
          ∀ u ∈ s, u.ts = m ∧ u.updateType = UpdateType.replace_content ∧
            ∃ str, u.content = some str) ∧
    (∀ (L0 : EditLog) (m : Nat), applyOptimizations m raw L0 ≠ L0) ∧
    ((processHistoryForApi tokenizer cfg L raw P now).storeInvoked = true ∧
      (processHistoryForApi tokenizer cfg L raw P now).newLiveLog ≠ L) ∧
    ((processHistoryForApi tokenizer cfg
        (processHistoryForApi tokenizer cfg L raw P now).newLiveLog
        raw P now2).storeInvoked = true ∧
      (processHistoryForApi tokenizer cfg
        (processHistoryForApi tokenizer cfg L raw P now).newLiveLog
        raw P now2).newLiveLog ≠
        (processHistoryForApi tokenizer cfg L raw P now).newLiveLog) := by
  have hvalid := findDuplicateFileReads_valid raw
  have hlt : ∀ q ∈ processedOccurrences (findDuplicateFileReads raw),
      q.2.messageIndex < raw.length := by
    intro q hq
    obtain ⟨os, hosmem, hdl, _⟩ :=
      processedOccurrences_mem (findDuplicateFileReads raw) q hq
    exact (hvalid (q.1, os) hosmem q.2
      ((List.dropLast_sublist os).subset hdl)).2.1
  obtain ⟨pr, hpr, h2⟩ := hocc
  obtain ⟨o0, ho0⟩ := List.exists_mem_of_length_pos
    (by rw [List.length_dropLast]; omega : 0 < pr.2.dropLast.length)
  have hq0 : (pr.1, o0) ∈ processedOccurrences (findDuplicateFileReads raw) :=
    processedOccurrences_of_mem _ pr hpr (by omega) o0 ho0
  have partA : ∀ (L0 : EditLog) (m : Nat),
      ∀ q ∈ processedOccurrences (findDuplicateFileReads raw),
        ∃ s, lookupBlock (applyOptimizations m raw L0)
            q.2.messageIndex q.2.blockIndex =
          lookupBlock L0 q.2.messageIndex q.2.blockIndex ++ s ∧ s ≠ [] ∧
          ∀ u ∈ s, u.ts = m ∧ u.updateType = UpdateType.replace_content ∧
            ∃ str, u.content = some str := by
    intro L0 m q hq
    obtain ⟨s, hs, hlen, hall⟩ := foldElide_suffix m raw
      (processedOccurrences (findDuplicateFileReads raw)) L0 hlt
      q.2.messageIndex q.2.blockIndex
    refine ⟨s, ?_, ?_, hall⟩
    · rw [applyOptimizations_eq_foldElide]
      exact hs
    · have hmemf : q ∈ (processedOccurrences
          (findDuplicateFileReads raw)).filter
          (fun q' => q'.2.messageIndex == q.2.messageIndex &&
            q'.2.blockIndex == q.2.blockIndex) :=
        List.mem_filter.mpr ⟨hq, by simp⟩
      have hpos : 0 < s.length := by
        rw [hlen]
        exact List.length_pos.mpr (List.ne_nil_of_mem hmemf)
      exact List.length_pos.mp hpos
  have partA2 : ∀ (L0 : EditLog) (m : Nat),
      applyOptimizations m raw L0 ≠ L0 := by
    intro L0 m heq
    obtain ⟨s, hs, hsne, _⟩ := partA L0 m (pr.1, o0) hq0
    rw [heq] at hs
    have hlen := congrArg List.length hs
    rw [List.length_append] at hlen
    exact hsne (List.length_eq_zero.mp (by omega))
  have houtcome : ∀ (L0 : EditLog) (m : Nat),
      processHistoryForApi tokenizer cfg L0 raw P m =
        ⟨applyModificationsToHistory (applyContextHistoryUpdates raw L0)
            (applyOptimizations m raw L0),
         applyOptimizations m raw L0,
         calculateTokens tokenizer
           (applyModificationsToHistory (applyContextHistoryUpdates raw L0)
             (applyOptimizations m raw L0)),
         false,
         applyOptimizations m raw L0,
         decide (applyOptimizations m raw L0 ≠ L0)⟩ := by
    intro L0 m
    rw [processHistoryForApi_of_pos _ _ _ _ _ _ (not_le.mpr hb)]
    rw [show applyTruncation tokenizer
        (applyModificationsToHistory (applyContextHistoryUpdates raw L0)
          (applyOptimizations m raw L0))
        (applyOptimizations m raw L0)
        ((getContextWindowInfo cfg.currentModelInfo).maxAllowedSize -
          cfg.reservedResponseTokens - cfg.tokenBuffer)
        P cfg.truncationPercentage m =
      ⟨applyModificationsToHistory (applyContextHistoryUpdates raw L0)
          (applyOptimizations m raw L0),
       applyOptimizations m raw L0, false⟩ from by
      simp only [applyTruncation, gt_iff_lt, if_neg (not_lt.mpr hP)]]
  refine ⟨partA, partA2, ⟨?_, ?_⟩, ⟨?_, ?_⟩⟩
  · rw [houtcome L now]
    exact decide_eq_true (partA2 L now)
  · rw [houtcome L now]
    exact partA2 L now
  · rw [houtcome L now]
    show (processHistoryForApi tokenizer cfg (applyOptimizations now raw L)
        raw P now2).storeInvoked = true
    rw [houtcome (applyOptimizations now raw L) now2]
    exact decide_eq_true (partA2 (applyOptimizations now raw L) now2)
  · rw [houtcome L now]
    show (processHistoryForApi tokenizer cfg (applyOptimizations now raw L)
        raw P now2).newLiveLog ≠ applyOptimizations now raw L
    rw [houtcome (applyOptimizations now raw L) now2]
    exact partA2 (applyOptimizations now raw L) now2

/-- Witness for the amended C10 on the duplicated-mention fixture with an
empty live log, a zero previous count and sequential call instants. -/
theorem elision_log_growth_amended_witness :
    (∃ pr ∈ findDuplicateFileReads cexHistoryC10, 2 ≤ pr.2.length) ∧
    (0 : Rat) < (getContextWindowInfo cexCfg.currentModelInfo).maxAllowedSize -
      cexCfg.reservedResponseTokens - cexCfg.tokenBuffer ∧
    (0 : Rat) ≤ (getContextWindowInfo cexCfg.currentModelInfo).maxAllowedSize -
      cexCfg.reservedResponseTokens - cexCfg.tokenBuffer ∧
    (((processHistoryForApi (fun s => s.length) cexCfg [] cexHistoryC10 0
        5).storeInvoked = true ∧
      (processHistoryForApi (fun s => s.length) cexCfg [] cexHistoryC10 0
        5).newLiveLog ≠ []) ∧
     ((processHistoryForApi (fun s => s.length) cexCfg
        (processHistoryForApi (fun s => s.length) cexCfg [] cexHistoryC10 0
          5).newLiveLog cexHistoryC10 0 6).storeInvoked = true ∧
      (processHistoryForApi (fun s => s.length) cexCfg
        (processHistoryForApi (fun s => s.length) cexCfg [] cexHistoryC10 0
          5).newLiveLog cexHistoryC10 0 6).newLiveLog ≠
        (processHistoryForApi (fun s => s.length) cexCfg [] cexHistoryC10 0
          5).newLiveLog)) := by
  have h1 : ∃ pr ∈ findDuplicateFileReads cexHistoryC10, 2 ≤ pr.2.length := by
    decide
  have h2 : (0 : Rat) <
      (getContextWindowInfo cexCfg.currentModelInfo).maxAllowedSize -
        cexCfg.reservedResponseTokens - cexCfg.tokenBuffer := by
    rw [budget_cexCfg]
    norm_num
  have h3 : (0 : Rat) ≤
      (getContextWindowInfo cexCfg.currentModelInfo).maxAllowedSize -
        cexCfg.reservedResponseTokens - cexCfg.tokenBuffer := le_of_lt h2
  have hmain := elision_log_growth_amended (fun s => s.length) cexCfg []
    cexHistoryC10 0 5 6 h1 h2 h3
  exact ⟨h1, h2, h3, hmain.2.2.1, hmain.2.2.2⟩
